import Mathlib

/-!
# SHA-3 (Keccak) of `sha3/sha3.h`

A shallow embedding of `vitessa::sha3` and the proofs of its specification.

* `uint64_t` lanes are natural numbers; the only operation that can leave 64 bits,
  the left shift inside `ROTL64`, is reduced modulo `2 ^ 64`.
* `unsigned char` is `Fin 256`; a buffer is the list of its bytes.
* `int` is `Int`; the C division `/` is `Int.tdiv`. The sizes and lengths of `hash` stay
  between their operands for the buffers a caller can pass, so they are computed in `Int`;
  the decrement `--iterate` can leave `int` and is reduced to 32 bits (`wrap32`).
* Code that can leave defined behaviour returns `Except Fault`: every access to `temp`, to
  `st` and to the buffer `in` is checked against the extent of the object, and a byte of
  `temp` that was never written cannot be read.
* `((uint64_t *) p)[i]` is the little-endian load of bytes `8 i .. 8 i + 7`; alignment is
  outside the model.
* The loops of `hash` are recursions on a fuel that the callers set high enough for every
  run that ends; the theorems show that the results are `Except.ok`.
-/

namespace vitessa

/-- An `unsigned char`. -/
abbrev Byte := Fin 256

/-- The ways `sha3::hash` can fail to produce a digest. -/
inductive Fault where
  /-- An access outside the object that is indexed. -/
  | outOfBounds
  /-- A read of a byte of `temp` that was never written. -/
  | indeterminate
  /-- A loop that never leaves. -/
  | diverged
  deriving DecidableEq, Repr

deriving instance DecidableEq for Except

/-- The constant `KECCAK_ROUNDS`. -/
def KECCAK_ROUNDS : Nat := 24

/-- The table `keccakf_rndc`. -/
def keccakf_rndc : List Nat :=
  [ 0x0000000000000001, 0x0000000000008082, 0x800000000000808a,
    0x8000000080008000, 0x000000000000808b, 0x0000000080000001,
    0x8000000080008081, 0x8000000000008009, 0x000000000000008a,
    0x0000000000000088, 0x0000000080008009, 0x000000008000000a,
    0x000000008000808b, 0x800000000000008b, 0x8000000000008089,
    0x8000000000008003, 0x8000000000008002, 0x8000000000000080,
    0x000000000000800a, 0x800000008000000a, 0x8000000080008081,
    0x8000000000008080, 0x0000000080000001, 0x8000000080008008 ]

/-- The table `keccakf_rotc`. -/
def keccakf_rotc : List Nat :=
  [  1,  3,  6, 10, 15, 21, 28, 36, 45, 55,  2, 14,
    27, 41, 56,  8, 25, 43, 62, 18, 39, 61, 20, 44 ]

/-- The table `keccakf_piln`. -/
def keccakf_piln : List Nat :=
  [ 10,  7, 11, 17, 18,  3,  5, 16,  8, 21, 24,  4,
    15, 23, 19, 13, 12,  2, 20, 14, 22,  9,  6,  1 ]

namespace sha3

/-! ## The permutation -/

/-- The function `ROTL64(lhs, rhs)`: `(lhs << rhs) | (lhs >> (64 - rhs))` on `uint64_t`. -/
def ROTL64 (lhs rhs : Nat) : Nat :=
  ((lhs <<< rhs) % 2 ^ 64) ||| (lhs >>> (64 - rhs))

/-- The Theta step of one round: the five parities `bc`, then `st[j + i] ^= t` for
`j = 0, 5, .., 20` inside the loop over `i`. -/
def theta (st : List Nat) : List Nat :=
  let bc := (List.range 5).map (fun i =>
    st.getD i 0 ^^^ st.getD (i + 5) 0 ^^^ st.getD (i + 10) 0 ^^^ st.getD (i + 15) 0
      ^^^ st.getD (i + 20) 0)
  (List.range 5).foldl (fun st i =>
    let t := bc.getD ((i + 4) % 5) 0 ^^^ ROTL64 (bc.getD ((i + 1) % 5) 0) 1
    (List.range 5).foldl (fun st k => st.set (5 * k + i) (st.getD (5 * k + i) 0 ^^^ t)) st) st

/-- The Rho Pi step of one round; the pair is the state and the rolling temporary `t`. -/
def rhoPi (st : List Nat) : List Nat :=
  ((List.range 24).foldl (fun (p : List Nat × Nat) i =>
    let j := keccakf_piln.getD i 0
    let bc0 := p.1.getD j 0
    (p.1.set j (ROTL64 p.2 (keccakf_rotc.getD i 0)), bc0)) (st, st.getD 1 0)).1

/-- The Chi step of one round, row by row (`j = 5 k`); `~x` is `x ^ 0xffffffffffffffff`. -/
def chi (st : List Nat) : List Nat :=
  (List.range 5).foldl (fun st k =>
    let j := 5 * k
    let bc := (List.range 5).map (fun i => st.getD (j + i) 0)
    (List.range 5).foldl (fun st i =>
      st.set (j + i)
        (st.getD (j + i) 0 ^^^
          ((bc.getD ((i + 1) % 5) 0 ^^^ (2 ^ 64 - 1)) &&& bc.getD ((i + 2) % 5) 0))) st) st

/-- The Iota step of round `round`. -/
def iota (round : Nat) (st : List Nat) : List Nat :=
  st.set 0 (st.getD 0 0 ^^^ keccakf_rndc.getD round 0)

/-- One pass of the body of the round loop of `keccakf`. -/
def keccakRound (st : List Nat) (round : Nat) : List Nat :=
  iota round (chi (rhoPi (theta st)))

/-- The function `keccakf(st, rounds)`: the state after the loop
`for (round = 0; round < rounds; round++)`. -/
def keccakf (st : List Nat) (rounds : Nat) : List Nat :=
  (List.range rounds).foldl keccakRound st

/-- A state of `keccakf`: `uint64_t st[25]`, 25 lanes of 64 bits. -/
def IsState (s : List Nat) : Prop :=
  s.length = 25 ∧ ∀ i, i < 25 → s.getD i 0 < 2 ^ 64

/-- The Theta step with the rotation left open; `theta` is `thetaWith ROTL64`. -/
def thetaWith (rot : Nat → Nat → Nat) (st : List Nat) : List Nat :=
  let bc := (List.range 5).map (fun i =>
    st.getD i 0 ^^^ st.getD (i + 5) 0 ^^^ st.getD (i + 10) 0 ^^^ st.getD (i + 15) 0
      ^^^ st.getD (i + 20) 0)
  (List.range 5).foldl (fun st i =>
    let t := bc.getD ((i + 4) % 5) 0 ^^^ rot (bc.getD ((i + 1) % 5) 0) 1
    (List.range 5).foldl (fun st k => st.set (5 * k + i) (st.getD (5 * k + i) 0 ^^^ t)) st) st

/-- The Rho Pi step with the rotation left open; `rhoPi` is `rhoPiWith ROTL64`. -/
def rhoPiWith (rot : Nat → Nat → Nat) (st : List Nat) : List Nat :=
  ((List.range 24).foldl (fun (p : List Nat × Nat) i =>
    let j := keccakf_piln.getD i 0
    let bc0 := p.1.getD j 0
    (p.1.set j (rot p.2 (keccakf_rotc.getD i 0)), bc0)) (st, st.getD 1 0)).1

/-! ## Memory -/

/-- The value of a little-endian sequence of bytes. -/
def leWord : List Byte → Nat
  | [] => 0
  | b :: bs => b.val + 256 * leWord bs

/-- The load `((uint64_t *) p)[i]` from a buffer `p` of initialised bytes. -/
def load64 (p : List Byte) (i : Nat) : Except Fault Nat :=
  if 8 * i + 8 ≤ p.length then .ok (leWord ((p.drop (8 * i)).take 8))
  else .error .outOfBounds

/-- The array `uint8_t temp[144]` as declared: 144 bytes, none of them written. -/
def temp0 : List (Option Byte) := List.replicate 144 none

/-- A read of `t[i]`. -/
def fetch (t : List (Option Byte)) (i : Int) : Except Fault Byte :=
  if 0 ≤ i ∧ i < t.length then
    match t.getD i.toNat none with
    | some b => .ok b
    | none => .error .indeterminate
  else .error .outOfBounds

/-- The assignment `t[i] = b`. -/
def store (t : List (Option Byte)) (i : Int) (b : Byte) : Except Fault (List (Option Byte)) :=
  if 0 ≤ i ∧ i < t.length then .ok (t.set i.toNat (some b))
  else .error .outOfBounds

/-- The call `memcpy(dst, src, n)`: a negative `n` is a huge `size_t`. -/
def memcpy (dst : List (Option Byte)) (src : List Byte) (n : Int) :
    Except Fault (List (Option Byte)) :=
  if 0 ≤ n ∧ n ≤ dst.length ∧ n ≤ src.length then
    .ok ((src.take n.toNat).map some ++ dst.drop n.toNat)
  else .error .outOfBounds

/-- The call `memset(dst + off, c, n)`. -/
def memset (dst : List (Option Byte)) (off : Int) (c : Byte) (n : Int) :
    Except Fault (List (Option Byte)) :=
  if 0 ≤ off ∧ 0 ≤ n ∧ off + n ≤ dst.length then
    .ok (dst.take off.toNat ++ List.replicate n.toNat (some c) ++ dst.drop (off + n).toNat)
  else .error .outOfBounds

/-- The bytes of a stretch of `temp`, when all of them were written. -/
def writtenBytes : List (Option Byte) → Except Fault (List Byte)
  | [] => .ok []
  | none :: _ => .error .indeterminate
  | some b :: t => do
    let bs ← writtenBytes t
    pure (b :: bs)

/-- The load `((uint64_t *) temp)[i]`. -/
def loadTemp64 (t : List (Option Byte)) (i : Nat) : Except Fault Nat :=
  if 8 * i + 8 ≤ t.length then do
    let bs ← writtenBytes ((t.drop (8 * i)).take 8)
    pure (leWord bs)
  else .error .outOfBounds

/-- The object representation of `uint64_t st[25]` on a little-endian machine. -/
def stateBytes (st : List Nat) : List Byte :=
  st.flatMap (fun lane =>
    (List.range 8).map (fun k => (⟨(lane >>> (8 * k)) % 256, Nat.mod_lt _ (by decide)⟩ : Byte)))

/-! ## The sponge -/

/-- The loop `for (i = 0; i < rsizw; i++) st[i] ^= w[i]`, where `w i` is the load of word `i`. -/
def xorLanes (w : Nat → Except Fault Nat) (rsizw : Int) (st : List Nat) :
    Except Fault (List Nat) :=
  (List.range rsizw.toNat).foldlM (fun st i => do
    let x ← w i
    if i < st.length then pure (st.set i (st.getD i 0 ^^^ x))
    else throw Fault.outOfBounds) st

/-- The result of the absorbing loop: the state, the advanced `in`, the remaining `inlen`
and the number of passes. -/
structure Absorbed where
  st : List Nat
  inp : List Byte
  inlen : Int
  passes : Nat
  deriving DecidableEq, Repr

/-- The loop `for ( ; inlen >= rsiz; inlen -= rsiz, in += rsiz)` of `hash`, with `fuel`
bounding the number of times the condition is tested. -/
def absorb (rsiz rsizw : Int) : Nat → Absorbed → Except Fault Absorbed
  | 0, _ => .error .diverged
  | fuel + 1, a =>
    if a.inlen ≥ rsiz then do
      let st ← xorLanes (load64 a.inp) rsizw a.st
      absorb rsiz rsizw fuel
        ⟨keccakf st KECCAK_ROUNDS, a.inp.drop rsiz.toNat, a.inlen - rsiz, a.passes + 1⟩
    else .ok a

/-- The lines under `// last block and padding`: the content of `temp` before it is read. -/
def lastBlock (inp : List Byte) (inlen rsiz : Int) : Except Fault (List (Option Byte)) := do
  let temp ← memcpy temp0 inp inlen
  let temp ← store temp inlen 6
  let inlen := inlen + 1
  let temp ← memset temp inlen 0 (rsiz - inlen)
  let b ← fetch temp (rsiz - 1)
  store temp (rsiz - 1) (b ||| 0x80)

/-- The lines of `hash` from `// last block and padding` to the last `keccakf`: the final
state and the number of calls of `keccakf` so far. -/
def finish (rsiz rsizw : Int) (a : Absorbed) : Except Fault (List Nat × Nat) := do
  let temp ← lastBlock a.inp a.inlen rsiz
  let st ← xorLanes (loadTemp64 temp) rsizw a.st
  pure (keccakf st KECCAK_ROUNDS, a.passes + 1)

/-- The body of `hash` up to and including the last `keccakf`: the final state and the
number of calls of `keccakf`. With `rsiz >= 1` the loop tests its condition at most
`inlen + 1` times, so the fuel given is never the reason for a fault. -/
def hashState (inp : List Byte) (inlen mdlen : Int) : Except Fault (List Nat × Nat) := do
  let rsiz := 200 - 2 * mdlen
  let rsizw := Int.tdiv rsiz 8
  let a ← absorb rsiz rsizw (inlen.toNat + 1) ⟨List.replicate 25 0, inp, inlen, 0⟩
  finish rsiz rsizw a

/-- The call `memcpy(md, st, mdlen)`: the bytes written to `md`. -/
def squeeze (st : List Nat) (mdlen : Int) : Except Fault (List Byte) :=
  if 0 ≤ mdlen ∧ mdlen ≤ (stateBytes st).length then .ok ((stateBytes st).take mdlen.toNat)
  else .error .outOfBounds

/-- The function `hash(in, inlen, md, mdlen)`: `inp` is the buffer `in` points to, the result
is what is written to `md`. -/
def hash (inp : List Byte) (inlen mdlen : Int) : Except Fault (List Byte) := do
  let r ← hashState inp inlen mdlen
  squeeze r.1 mdlen

/-- A value reduced to the 32 bits of an `int` (two's complement). -/
def wrap32 (x : Int) : Int :=
  (x + 2 ^ 31) % 2 ^ 32 - 2 ^ 31

/-- The loop `while (--iterate > 0) hash(md, mdlen, md, mdlen)`, with `fuel` bounding the
number of times the condition is tested. -/
def rehash (mdlen : Int) : Nat → Int → List Byte → Except Fault (List Byte)
  | 0, _, _ => .error .diverged
  | fuel + 1, iterate, md =>
    if wrap32 (iterate - 1) > 0 then do
      let md ← hash md mdlen mdlen
      rehash mdlen fuel (wrap32 (iterate - 1)) md
    else .ok md

/-- The function `hash(in, inlen, md, mdlen, iterate)`. After the first decrement `iterate`
is below `2 ^ 31`, so the loop tests its condition at most `2 ^ 31` times and the fuel given
is never the reason for a fault. -/
def hash_iterate (inp : List Byte) (inlen mdlen iterate : Int) : Except Fault (List Byte) := do
  let md ← hash inp inlen mdlen
  rehash mdlen (2 ^ 31) iterate md

/-- The digest hashed `j` times over: `j` passes of the body `hash(md, mdlen, md, mdlen)`. -/
def rehashTimes (mdlen : Int) : Nat → List Byte → Except Fault (List Byte)
  | 0, md => .ok md
  | j + 1, md => do
    let md ← hash md mdlen mdlen
    rehashTimes mdlen j md

/-- The bytes `(unsigned char*) in` points to: the object representations `repr` of the
elements of the caller's array of `T`, one after the other. -/
def bytesOf {T : Type} (repr : T → List Byte) (buf : List T) : List Byte :=
  (buf.map repr).flatten

/-- The function `sum224<T>(in, inlen)`. -/
def sum224 {T : Type} (repr : T → List Byte) (buf : List T) (inlen : Int) :
    Except Fault (List Byte) :=
  hash (bytesOf repr buf) inlen 28

/-- The function `sum256<T>(in, inlen)`. -/
def sum256 {T : Type} (repr : T → List Byte) (buf : List T) (inlen : Int) :
    Except Fault (List Byte) :=
  hash (bytesOf repr buf) inlen 32

/-- The function `sum384<T>(in, inlen)`. -/
def sum384 {T : Type} (repr : T → List Byte) (buf : List T) (inlen : Int) :
    Except Fault (List Byte) :=
  hash (bytesOf repr buf) inlen 48

/-- The function `sum512<T>(in, inlen)`. -/
def sum512 {T : Type} (repr : T → List Byte) (buf : List T) (inlen : Int) :
    Except Fault (List Byte) :=
  hash (bytesOf repr buf) inlen 64

end sha3

/-! ## The sponge of the specification -/

namespace reference

open sha3

/-- The padding of length `q`: the byte `0x86` alone when `q = 1`, otherwise `0x06`, then
`q - 2` zero bytes, then `0x80`. -/
def padding (q : Nat) : List Byte :=
  if q = 1 then [0x86] else [0x06] ++ List.replicate (q - 2) 0 ++ [0x80]

/-- The blocks of `rsiz` bytes of `P`, in order. -/
def blocks (rsiz : Nat) (P : List Byte) : List (List Byte) :=
  (List.range (P.length / rsiz)).map (fun k => (P.drop (k * rsiz)).take rsiz)

/-- Word `i` of a block: its bytes `8 i .. 8 i + 7`, little-endian. -/
def word (B : List Byte) (i : Nat) : Nat :=
  leWord ((B.drop (8 * i)).take 8)

/-- The state with the first `rsizw` words of the block `B` XORed into lanes
`0 .. rsizw - 1`. -/
def xorBlock (rsizw : Nat) (st : List Nat) (B : List Byte) : List Nat :=
  st.mapIdx (fun i lane => if i < rsizw then lane ^^^ word B i else lane)

/-- The state after the blocks of `P` were absorbed, one after the other, from `st`. -/
def absorbBlocks (rsiz : Nat) (st : List Nat) (P : List Byte) : List Nat :=
  (blocks rsiz P).foldl (fun st B => keccakf (xorBlock (rsiz / 8) st B) 24) st

/-- The final state of the SHA-3 sponge with digest length `mdlen` on the message `M`. -/
def finalState (M : List Byte) (mdlen : Nat) : List Nat :=
  let rsiz := 200 - 2 * mdlen
  let q := rsiz - M.length % rsiz
  absorbBlocks rsiz (List.replicate 25 0) (M ++ padding q)

/-- The SHA-3 digest of length `mdlen` of the message `M`. -/
def digest (M : List Byte) (mdlen : Nat) : List Byte :=
  (stateBytes (finalState M mdlen)).take mdlen

/-- The walk of the Keccak specification over the lanes: it starts at `(1, 0)` and goes from
`(x, y)` to `(y, (2 x + 3 y) mod 5)`; `piWalk t` is the point after `t` steps. -/
def piWalk : Nat → Nat × Nat
  | 0 => (1, 0)
  | t + 1 => ((piWalk t).2, (2 * (piWalk t).1 + 3 * (piWalk t).2) % 5)

/-- The parity of column `x` of a state: `s[x] xor s[x+5] xor s[x+10] xor s[x+15] xor s[x+20]`. -/
def columnParity (s : List Nat) (x : Nat) : Nat :=
  s.getD x 0 ^^^ s.getD (x + 5) 0 ^^^ s.getD (x + 10) 0 ^^^ s.getD (x + 15) 0 ^^^ s.getD (x + 20) 0

end reference

end vitessa

namespace vitessa.sha3
open reference

/-! ## The permutation keeps the 25 lanes -/

theorem length_foldl_of_step {α : Type} (f : List Nat → α → List Nat)
    (hf : ∀ s a, (f s a).length = s.length) (l : List α) (s : List Nat) :
    (l.foldl f s).length = s.length := by
  induction l generalizing s with
  | nil => rfl
  | cons a l ih => rw [List.foldl_cons, ih, hf]

theorem length_theta (st : List Nat) : (theta st).length = st.length := by
  unfold theta
  exact length_foldl_of_step _ (fun s i => length_foldl_of_step _ (fun s k => by simp) _ s) _ st

theorem length_rhoPi (st : List Nat) : (rhoPi st).length = st.length := by
  unfold rhoPi
  generalize st.getD 1 0 = t
  generalize List.range 24 = l
  induction l generalizing st t with
  | nil => rfl
  | cons a l ih => rw [List.foldl_cons, ih]; simp

theorem length_chi (st : List Nat) : (chi st).length = st.length := by
  unfold chi
  exact length_foldl_of_step _ (fun s i => length_foldl_of_step _ (fun s k => by simp) _ s) _ st

theorem length_keccakf (st : List Nat) (rounds : Nat) : (keccakf st rounds).length = st.length := by
  unfold keccakf
  refine length_foldl_of_step _ (fun s r => ?_) _ st
  simp [keccakRound, iota, length_chi, length_rhoPi, length_theta]

/-! ## The XOR of a block into the state -/

theorem xorLanes_loop (w : Nat → Except Fault Nat) (v : Nat → Nat) (st : List Nat) (n : Nat)
    (hw : ∀ i, i < n → w i = .ok (v i)) (hn : n ≤ st.length) :
    (List.range n).foldlM (fun st i => do
      let x ← w i
      if i < st.length then pure (st.set i (st.getD i 0 ^^^ x))
      else throw Fault.outOfBounds) st
      = .ok (st.mapIdx (fun i lane => if i < n then lane ^^^ v i else lane)) := by
  induction n with
  | zero =>
    simp only [List.range_zero, List.foldlM_nil, pure, Except.pure]
    congr 1
    apply List.ext_getElem?
    intro j
    rcases h : st[j]? with _ | x <;> simp [h]
  | succ n ih =>
    rw [List.range_succ, List.foldlM_append, ih (fun i hi => hw i (by omega)) (by omega)]
    simp only [List.foldlM_cons, List.foldlM_nil, hw n (by omega)]
    simp only [bind, Except.bind, pure, Except.pure, List.length_mapIdx]
    rw [if_pos (by omega)]
    change Except.ok _ = Except.ok _
    congr 1
    apply List.ext_getElem?
    intro j
    simp only [List.getElem?_set, List.getElem?_mapIdx, List.length_mapIdx, List.getD_eq_getElem?_getD]
    by_cases hj : n = j
    · subst hj
      obtain ⟨x, hx⟩ : ∃ x, st[n]? = some x := ⟨st[n], by simp [List.getElem?_eq_getElem (show n < st.length by omega)]⟩
      have hlt : n < st.length := by omega
      simp [hx, hlt]
    · rcases h : st[j]? with _ | x
      · simp [hj]
      · have : (j < n + 1) = (j < n) := by
          apply propext; constructor <;> intro h' <;> omega
        simp [hj, this]

theorem xorLanes_eq (w : Nat → Except Fault Nat) (B : List Byte) (st : List Nat) (n : Nat)
    (hw : ∀ i, i < n → w i = .ok (word B i)) (hn : n ≤ st.length) :
    xorLanes w (n : Int) st = .ok (xorBlock n st B) := by
  unfold xorLanes xorBlock
  rw [Int.toNat_ofNat]
  exact xorLanes_loop w (word B) st n hw hn

theorem length_xorBlock (n : Nat) (st : List Nat) (B : List Byte) :
    (xorBlock n st B).length = st.length := by
  simp [xorBlock]

/-! ## Loads -/

theorem load64_eq (p : List Byte) (i : Nat) (h : 8 * i + 8 ≤ p.length) :
    load64 p i = .ok (word p i) := by
  simp [load64, word, h]

theorem word_take (B : List Byte) (r i : Nat) (h : 8 * i + 8 ≤ r) :
    word (B.take r) i = word B i := by
  unfold word
  rw [List.drop_take, List.take_take, Nat.min_eq_left (by omega)]

theorem writtenBytes_map_some (l : List Byte) : writtenBytes (l.map some) = .ok l := by
  induction l with
  | nil => rfl
  | cons b l ih => simp [writtenBytes, ih, bind, Except.bind, pure, Except.pure]

theorem loadTemp64_eq (B : List Byte) (J : List (Option Byte)) (i : Nat)
    (h : 8 * i + 8 ≤ B.length) :
    loadTemp64 (B.map some ++ J) i = .ok (word B i) := by
  unfold loadTemp64 word
  rw [if_pos (by simp; omega), List.drop_append_of_le_length (by simp; omega),
    List.take_append_of_le_length (by simp; omega), ← List.map_drop, ← List.map_take,
    writtenBytes_map_some]
  rfl

theorem xorBlock_take (n r : Nat) (st : List Nat) (B : List Byte) (h : 8 * n ≤ r) :
    xorBlock n st (B.take r) = xorBlock n st B := by
  unfold xorBlock
  apply List.ext_getElem?
  intro j
  simp only [List.getElem?_mapIdx]
  by_cases hj : j < n
  · rw [word_take B r j (by omega)]
  · simp [hj]

/-! ## The last block -/

theorem memcpy_temp0 (inp : List Byte) (n : Nat) (h : n ≤ 144) (hl : n ≤ inp.length) :
    memcpy temp0 inp (n : Int) = .ok ((inp.take n).map some ++ List.replicate (144 - n) none) := by
  have h144 : temp0.length = 144 := by simp [temp0]
  unfold memcpy
  rw [if_pos (by rw [h144]; omega), Int.toNat_ofNat]
  unfold temp0
  rw [List.drop_replicate]

theorem store_at_length (A : List (Option Byte)) (k : Nat) (n : Nat) (b : Byte)
    (hA : A.length = n) :
    store (A ++ List.replicate (k + 1) none) (n : Int) b
      = .ok (A ++ some b :: List.replicate k none) := by
  unfold store
  rw [if_pos (by simp; omega), Int.toNat_ofNat, List.set_append_right _ _ (by omega)]
  simp [hA, List.replicate_succ]

theorem memset_tail (A : List (Option Byte)) (k m : Nat) (off cnt : Int) (c : Byte)
    (hoff : off = A.length) (hcnt : cnt = m) (hm : m ≤ k) :
    memset (A ++ List.replicate k none) off c cnt
      = .ok (A ++ List.replicate m (some c) ++ List.replicate (k - m) none) := by
  subst hoff hcnt
  unfold memset
  rw [if_pos (by simp; omega)]
  have h1 : ((A.length : Int) + (m : Int)).toNat = A.length + m := by omega
  rw [h1, Int.toNat_ofNat, Int.toNat_ofNat]
  simp

theorem fetch_written (B : List Byte) (J : List (Option Byte)) (i : Nat) (h : i < B.length) :
    fetch (B.map some ++ J) (i : Int) = .ok (B.getD i 0) := by
  unfold fetch
  rw [if_pos (by simp; omega), Int.toNat_ofNat]
  simp [List.getElem?_append_left, h, List.getElem?_eq_getElem]

theorem store_written (B : List Byte) (J : List (Option Byte)) (i : Nat) (b : Byte)
    (h : i < B.length) :
    store (B.map some ++ J) (i : Int) b = .ok ((B.set i b).map some ++ J) := by
  unfold store
  rw [if_pos (by simp; omega), Int.toNat_ofNat, List.set_append_left _ _ (by simp; omega)]
  simp [List.map_set]

theorem set_last_padding (T : List Byte) (m : Nat) :
    (T ++ 6 :: List.replicate m 0).set (T.length + m)
        ((T ++ 6 :: List.replicate m 0).getD (T.length + m) 0 ||| 0x80)
      = T ++ padding (m + 1) := by
  rcases m with _ | m
  · simp [padding, List.set_append_right]
    decide
  · have hpad : padding (m + 1 + 1) = 6 :: (List.replicate m 0 ++ [0x80]) := by
      simp [padding]
    have hrep : List.replicate (m + 1) (0 : Byte) = List.replicate m 0 ++ [0] := by
      rw [List.replicate_succ']
    rw [hpad, hrep]
    have hidx : T.length + (m + 1) - T.length = m + 1 := by omega
    have hget : (T ++ 6 :: (List.replicate m (0 : Byte) ++ [0])).getD (T.length + (m + 1)) 0 = 0 := by
      rw [List.getD_eq_getElem?_getD, List.getElem?_append_right (by omega), hidx,
        List.getElem?_cons_succ, List.getElem?_append_right (by simp)]
      simp
    rw [hget, List.set_append_right _ _ (by omega)]
    have : T.length + (m + 1) - T.length = (List.replicate m (0 : Byte)).length + 1 := by
      simp
    rw [this, List.set_cons_succ, List.set_append_right _ _ (by omega)]
    simp
    decide

theorem lastBlock_eq (inp : List Byte) (n r : Nat) (hn : n < r) (hr : r ≤ 144)
    (hl : n ≤ inp.length) :
    lastBlock inp (n : Int) (r : Int)
      = .ok ((inp.take n ++ padding (r - n)).map some ++ List.replicate (144 - r) none) := by
  obtain ⟨m, rfl⟩ : ∃ m, r = n + m + 1 := ⟨r - n - 1, by omega⟩
  have hT : (inp.take n).length = n := by simp; omega
  have hTs : ((inp.take n).map some).length = n := by simp; omega
  have e1 : 144 - n = (143 - n) + 1 := by omega
  have e2 : (((n + m + 1 : Nat) : Int) - 1) = ((n + m : Nat) : Int) := by omega
  have e3 : n + m + 1 - n = m + 1 := by omega
  have e4 : 143 - n - m = 144 - (n + m + 1) := by omega
  unfold lastBlock
  simp only [bind, Except.bind]
  rw [memcpy_temp0 inp n (by omega) hl, e1]
  simp only []
  rw [store_at_length _ _ n 6 hTs]
  simp only []
  rw [List.append_cons, memset_tail _ (143 - n) m _ _ 0 (by simp; omega) (by omega) (by omega)]
  simp only []
  have hform : (List.map some (List.take n inp) ++ [some (6 : Byte)]) ++ List.replicate m (some 0)
      = (inp.take n ++ 6 :: List.replicate m 0).map some := by
    simp
  rw [hform, e2, e4, fetch_written _ _ _ (by simp; omega)]
  simp only []
  rw [store_written _ _ _ _ (by simp; omega), e3]
  have := set_last_padding (inp.take n) m
  rw [hT] at this
  rw [this]

/-! ## The blocks of the padded message -/

theorem length_padding (q : Nat) (hq : 0 < q) : (padding q).length = q := by
  unfold padding
  split
  · simp; omega
  · simp; omega

theorem blocks_cons (r : Nat) (P : List Byte) (hr : 0 < r) (hP : r ≤ P.length) :
    blocks r P = P.take r :: blocks r (P.drop r) := by
  unfold blocks
  have hdiv : P.length / r = (P.length - r) / r + 1 := by
    rw [Nat.div_eq_sub_div hr hP]
  rw [hdiv, List.range_succ_eq_map, List.map_cons, List.map_map, List.length_drop]
  congr 1
  · simp
  · apply List.map_congr_left
    intro k _
    simp only [Function.comp, List.drop_drop]
    congr 2
    rw [Nat.succ_mul]; omega

theorem blocks_short (r : Nat) (P : List Byte) (hP : P.length < r) : blocks r P = [] := by
  unfold blocks
  rw [Nat.div_eq_of_lt hP]
  rfl

theorem blocks_single (r : Nat) (P : List Byte) (hr : 0 < r) (hP : P.length = r) :
    blocks r P = [P] := by
  rw [blocks_cons r P hr (by omega), blocks_short r _ (by simp; omega)]
  rw [List.take_of_length_le (by omega)]

/-! ## `hash` is the sponge -/

theorem finish_eq (r w : Nat) (hr8 : r = 8 * w) (hr : r ≤ 144) (a : Absorbed) (n : Nat)
    (ha : a.inlen = n) (hn : n < r) (hl : n ≤ a.inp.length) (hst : w ≤ a.st.length) :
    finish (r : Int) (w : Int) a
      = .ok (keccakf (xorBlock w a.st (a.inp.take n ++ padding (r - n))) 24, a.passes + 1) := by
  have hlen : (a.inp.take n ++ padding (r - n)).length = r := by
    rw [List.length_append, length_padding _ (by omega), List.length_take]; omega
  unfold finish
  rw [ha, lastBlock_eq a.inp n r hn hr hl]
  simp only [bind, Except.bind]
  rw [xorLanes_eq _ (a.inp.take n ++ padding (r - n)) a.st w
    (fun i hi => loadTemp64_eq _ _ i (by omega)) hst]
  simp only [KECCAK_ROUNDS, pure, Except.pure]

theorem absorb_finish (r w : Nat) (hr8 : r = 8 * w) (hr0 : 0 < r) (hr : r ≤ 144) :
    ∀ (fuel : Nat) (a : Absorbed) (n : Nat), a.inlen = n → n ≤ a.inp.length →
      a.st.length = 25 → n < fuel * r →
      (absorb (r : Int) (w : Int) fuel a >>= finish (r : Int) (w : Int))
        = .ok (absorbBlocks r a.st (a.inp.take n ++ padding (r - n % r)),
            a.passes + n / r + 1) := by
  intro fuel
  induction fuel with
  | zero => intro a n _ _ _ h; omega
  | succ fuel ih =>
    intro a n ha hl hst hfuel
    have hw : w = r / 8 := by omega
    unfold absorb
    by_cases hge : r ≤ n
    · rw [if_pos (by rw [ha]; omega)]
      simp only [bind, Except.bind]
      rw [xorLanes_eq _ a.inp a.st w (fun i hi => load64_eq _ i (by omega)) (by omega)]
      simp only []
      have hsub : a.inlen - (r : Int) = ((n - r : Nat) : Int) := by rw [ha]; omega
      have := ih ⟨keccakf (xorBlock w a.st a.inp) KECCAK_ROUNDS, a.inp.drop r, a.inlen - r,
        a.passes + 1⟩ (n - r) hsub (by simp; omega)
        (by simp [length_keccakf, length_xorBlock, hst])
        (by rw [Nat.succ_mul] at hfuel; omega)
      simp only [bind, Except.bind, Int.toNat_ofNat] at this ⊢
      rw [this]
      have hmod : (n - r) % r = n % r := by
        rw [Nat.mod_eq_sub_mod hge]
      have hdiv : a.passes + 1 + (n - r) / r + 1 = a.passes + n / r + 1 := by
        rw [Nat.div_eq_sub_div hr0 hge]; omega
      have hsplit : a.inp.take n ++ padding (r - n % r)
          = a.inp.take r ++ ((a.inp.drop r).take (n - r) ++ padding (r - n % r)) := by
        rw [← List.append_assoc]
        congr 1
        have : n = r + (n - r) := by omega
        conv_lhs => rw [this]
        rw [List.take_add]
      have htake : (a.inp.take r).length = r := by simp; omega
      have key : absorbBlocks r a.st (a.inp.take n ++ padding (r - n % r))
          = absorbBlocks r (keccakf (xorBlock w a.st a.inp) KECCAK_ROUNDS)
              ((a.inp.drop r).take (n - r) ++ padding (r - n % r)) := by
        rw [hsplit]
        unfold absorbBlocks
        rw [blocks_cons r _ hr0 (by simp; omega), List.foldl_cons,
          List.take_append_of_le_length (by omega), List.take_take, Nat.min_self,
          List.drop_append_of_le_length (by omega),
          List.drop_of_length_le (by omega : (a.inp.take r).length ≤ r), List.nil_append,
          ← hw, xorBlock_take w r _ _ (by omega)]
        simp only [KECCAK_ROUNDS]
      rw [key, hmod, hdiv]
    · rw [if_neg (by rw [ha]; omega)]
      have hmod : n % r = n := Nat.mod_eq_of_lt (by omega)
      have hdiv : n / r = 0 := Nat.div_eq_of_lt (by omega)
      have hlen : (a.inp.take n ++ padding (r - n)).length = r := by
        rw [List.length_append, length_padding _ (by omega), List.length_take]; omega
      change finish (r : Int) (w : Int) a = _
      rw [finish_eq r w hr8 hr a n ha (by omega) hl (by omega), hmod, hdiv]
      unfold absorbBlocks
      rw [blocks_single r _ hr0 hlen, ← hw]
      simp only [KECCAK_ROUNDS, List.foldl_cons, List.foldl_nil, Nat.add_zero]

/-- The digest lengths for which the rate is a positive multiple of 8 that fits `temp`. -/
theorem rate_of_mdlen (mdlen : Nat) (h1 : 28 ≤ mdlen) (h2 : mdlen < 100) (h4 : mdlen % 4 = 0) :
    (200 - 2 * (mdlen : Int) = ((200 - 2 * mdlen : Nat) : Int)) ∧
    (Int.tdiv ((200 - 2 * mdlen : Nat) : Int) 8 = (((200 - 2 * mdlen) / 8 : Nat) : Int)) ∧
    200 - 2 * mdlen = 8 * ((200 - 2 * mdlen) / 8) ∧ 0 < 200 - 2 * mdlen ∧
    200 - 2 * mdlen ≤ 144 := by
  refine ⟨by omega, ?_, by omega, by omega, by omega⟩
  exact (Int.ofNat_tdiv _ 8).symm

theorem hashState_eq (mdlen : Nat) (h1 : 28 ≤ mdlen) (h2 : mdlen < 100) (h4 : mdlen % 4 = 0)
    (inp : List Byte) (n : Nat) (hl : n ≤ inp.length) :
    hashState inp (n : Int) (mdlen : Int)
      = .ok (finalState (inp.take n) mdlen, n / (200 - 2 * mdlen) + 1) := by
  obtain ⟨e1, e2, hr8, hr0, hr⟩ := rate_of_mdlen mdlen h1 h2 h4
  unfold hashState
  simp only []
  rw [e1, e2, Int.toNat_ofNat]
  have := absorb_finish (200 - 2 * mdlen) ((200 - 2 * mdlen) / 8) hr8 hr0 hr (n + 1)
    ⟨List.replicate 25 0, inp, (n : Int), 0⟩ n rfl hl (by simp)
    (Nat.lt_of_lt_of_le (Nat.lt_succ_self n) (Nat.le_mul_of_pos_right _ hr0))
  simp only [Nat.zero_add] at this
  rw [this]
  unfold finalState
  simp only []
  rw [List.length_take, Nat.min_eq_left hl]

theorem length_stateBytes (st : List Nat) : (stateBytes st).length = 8 * st.length := by
  unfold stateBytes
  induction st with
  | nil => rfl
  | cons a st ih => rw [List.flatMap_cons, List.length_append, ih]; simp; omega

theorem length_absorbBlocks (r : Nat) (st : List Nat) (P : List Byte) :
    (absorbBlocks r st P).length = st.length := by
  unfold absorbBlocks
  exact length_foldl_of_step _ (fun s B => by rw [length_keccakf, length_xorBlock]) _ st

theorem length_finalState (M : List Byte) (mdlen : Nat) : (finalState M mdlen).length = 25 := by
  unfold finalState
  simp only []
  rw [length_absorbBlocks]
  simp

theorem squeeze_eq (st : List Nat) (mdlen : Nat) (hst : st.length = 25) (h : mdlen ≤ 200) :
    squeeze st (mdlen : Int) = .ok ((stateBytes st).take mdlen) := by
  unfold squeeze
  rw [if_pos (by rw [length_stateBytes, hst]; omega), Int.toNat_ofNat]

theorem hash_eq (mdlen : Nat) (h1 : 28 ≤ mdlen) (h2 : mdlen < 100) (h4 : mdlen % 4 = 0)
    (inp : List Byte) (n : Nat) (hl : n ≤ inp.length) :
    hash inp (n : Int) (mdlen : Int) = .ok (digest (inp.take n) mdlen) := by
  unfold hash
  rw [hashState_eq mdlen h1 h2 h4 inp n hl]
  simp only [bind, Except.bind]
  rw [squeeze_eq _ mdlen (length_finalState _ _) (by omega)]
  rfl

theorem length_digest (M : List Byte) (mdlen : Nat) (h : mdlen ≤ 200) :
    (digest M mdlen).length = mdlen := by
  unfold digest
  rw [List.length_take, length_stateBytes, length_finalState]
  omega

/-! ## The absorbing loop alone -/

theorem absorb_eq (r w : Nat) (hr8 : r = 8 * w) (hr0 : 0 < r) (hr : r ≤ 144) :
    ∀ (fuel : Nat) (a : Absorbed) (n : Nat), a.inlen = n → n ≤ a.inp.length →
      a.st.length = 25 → n < fuel * r →
      absorb (r : Int) (w : Int) fuel a
        = .ok ⟨absorbBlocks r a.st (a.inp.take (n - n % r)), a.inp.drop (n - n % r),
            ((n % r : Nat) : Int), a.passes + n / r⟩ := by
  intro fuel
  induction fuel with
  | zero => intro a n _ _ _ h; omega
  | succ fuel ih =>
    intro a n ha hl hst hfuel
    have hw : w = r / 8 := by omega
    unfold absorb
    by_cases hge : r ≤ n
    · rw [if_pos (by rw [ha]; omega)]
      simp only [bind, Except.bind]
      rw [xorLanes_eq _ a.inp a.st w (fun i hi => load64_eq _ i (by omega)) (by omega)]
      simp only []
      have hsub : a.inlen - (r : Int) = ((n - r : Nat) : Int) := by rw [ha]; omega
      have := ih ⟨keccakf (xorBlock w a.st a.inp) KECCAK_ROUNDS, a.inp.drop r, a.inlen - r,
        a.passes + 1⟩ (n - r) hsub (by simp; omega)
        (by simp [length_keccakf, length_xorBlock, hst])
        (by rw [Nat.succ_mul] at hfuel; omega)
      simp only [Int.toNat_ofNat] at this ⊢
      rw [this]
      have hmod : (n - r) % r = n % r := by
        rw [Nat.mod_eq_sub_mod hge]
      have hdiv : a.passes + 1 + (n - r) / r = a.passes + n / r := by
        rw [Nat.div_eq_sub_div hr0 hge]; omega
      have hle : n % r ≤ n - r := by
        rw [← hmod]; exact Nat.mod_le _ _
      have hsplit : a.inp.take (n - n % r)
          = a.inp.take r ++ (a.inp.drop r).take (n - r - n % r) := by
        have : n - n % r = r + (n - r - n % r) := by omega
        rw [this, List.take_add]
      have htake : (a.inp.take r).length = r := by simp; omega
      have key : absorbBlocks r a.st (a.inp.take (n - n % r))
          = absorbBlocks r (keccakf (xorBlock w a.st a.inp) KECCAK_ROUNDS)
              ((a.inp.drop r).take (n - r - n % r)) := by
        rw [hsplit]
        unfold absorbBlocks
        rw [blocks_cons r _ hr0 (by simp; omega), List.foldl_cons,
          List.take_append_of_le_length (by omega), List.take_take, Nat.min_self,
          List.drop_append_of_le_length (by omega),
          List.drop_of_length_le (by omega : (a.inp.take r).length ≤ r), List.nil_append,
          ← hw, xorBlock_take w r _ _ (by omega)]
        simp only [KECCAK_ROUNDS]
      have hdrop : List.drop (n - r - n % r) (List.drop r a.inp) = a.inp.drop (n - n % r) := by
        rw [List.drop_drop]; congr 1; omega
      rw [key, hmod, hdiv, hdrop]
    · rw [if_neg (by rw [ha]; omega)]
      have hmod : n % r = n := Nat.mod_eq_of_lt (by omega)
      have hdiv : n / r = 0 := Nat.div_eq_of_lt (by omega)
      rw [hmod, hdiv, Nat.sub_self, List.take_zero, List.drop_zero]
      unfold absorbBlocks
      rw [blocks_short r _ (by simp; omega)]
      simp only [List.foldl_nil, Nat.add_zero]
      rw [← ha]

/-! ## The iterated hash -/

theorem wrap32_of_range (x : Int) (h1 : -2 ^ 31 ≤ x) (h2 : x < 2 ^ 31) : wrap32 x = x := by
  unfold wrap32; omega

theorem wrap32_range (x : Int) : -2 ^ 31 ≤ wrap32 x ∧ wrap32 x < 2 ^ 31 := by
  unfold wrap32; omega

theorem rehash_eq_rehashTimes (mdlen : Int) :
    ∀ (fuel : Nat) (k : Int) (md : List Byte), (wrap32 (k - 1)).toNat < fuel →
      rehash mdlen fuel k md = rehashTimes mdlen (wrap32 (k - 1)).toNat md := by
  intro fuel
  induction fuel with
  | zero => intro k md h; omega
  | succ fuel ih =>
    intro k md h
    have hrange := wrap32_range (k - 1)
    unfold rehash
    by_cases hpos : wrap32 (k - 1) > 0
    · rw [if_pos hpos]
      have hstep : wrap32 (wrap32 (k - 1) - 1) = wrap32 (k - 1) - 1 :=
        wrap32_of_range _ (by omega) (by omega)
      obtain ⟨j, hj⟩ : ∃ j : Nat, (wrap32 (k - 1)).toNat = j + 1 :=
        ⟨(wrap32 (k - 1)).toNat - 1, by omega⟩
      have hj' : (wrap32 (k - 1) - 1).toNat = j := by omega
      rw [hj, rehashTimes]
      congr 1
      funext md1
      rw [ih (wrap32 (k - 1)) md1 (by rw [hstep]; omega), hstep, hj']
    · rw [if_neg hpos]
      have : (wrap32 (k - 1)).toNat = 0 := by omega
      rw [this, rehashTimes]

theorem hash_iterate_eq (inp : List Byte) (inlen mdlen k : Int) :
    hash_iterate inp inlen mdlen k
      = hash inp inlen mdlen >>= rehashTimes mdlen (wrap32 (k - 1)).toNat := by
  unfold hash_iterate
  congr 1
  funext md
  exact rehash_eq_rehashTimes mdlen (2 ^ 31) k md (by have := wrap32_range (k - 1); omega)

theorem rehashTimes_succ_last (mdlen : Int) :
    ∀ (j : Nat) (md : List Byte),
      rehashTimes mdlen (j + 1) md = rehashTimes mdlen j md >>= fun D => hash D mdlen mdlen := by
  intro j
  induction j with
  | zero =>
    intro md
    simp only [rehashTimes, bind, Except.bind]
    cases hash md mdlen mdlen <;> rfl
  | succ j ih =>
    intro md
    rw [rehashTimes]
    conv_rhs => rw [rehashTimes]
    cases h : hash md mdlen mdlen with
    | error e => rfl
    | ok md1 =>
      simp only [bind, Except.bind]
      exact ih md1

theorem bind_rehashTimes_eq_iterate (mdlen : Int) :
    ∀ (j : Nat) (e : Except Fault (List Byte)),
      (e >>= rehashTimes mdlen j)
        = Nat.iterate (fun r => r >>= fun D => hash D mdlen mdlen) j e := by
  intro j
  induction j with
  | zero => intro e; cases e <;> rfl
  | succ j ih =>
    intro e
    rw [Function.iterate_succ_apply, ← ih]
    cases e with
    | error x => rfl
    | ok md =>
      simp only [bind, Except.bind]
      rw [rehashTimes]
      rfl

theorem rehashTimes_eq_digest (mdlen : Nat) (h1 : 28 ≤ mdlen) (h2 : mdlen < 100)
    (h4 : mdlen % 4 = 0) :
    ∀ (j : Nat) (md : List Byte), md.length = mdlen →
      rehashTimes (mdlen : Int) j md = .ok (Nat.iterate (fun D => digest D mdlen) j md) := by
  intro j
  induction j with
  | zero => intro md _; rfl
  | succ j ih =>
    intro md hmd
    rw [rehashTimes, hash_eq mdlen h1 h2 h4 md mdlen (by omega),
      List.take_of_length_le (by omega)]
    simp only [bind, Except.bind]
    rw [ih _ (length_digest _ _ (by omega)), Function.iterate_succ_apply]

/-! ## The supported digest lengths -/

theorem supported_rate (mdlen : Nat) (h : mdlen = 28 ∨ mdlen = 32 ∨ mdlen = 48 ∨ mdlen = 64) :
    28 ≤ mdlen ∧ mdlen < 100 ∧ mdlen % 4 = 0 := by
  rcases h with rfl | rfl | rfl | rfl <;> decide

/-! ## Known answers -/

theorem hash_nil_224 : hash [] 0 28 = .ok
    [0x6b, 0x4e, 0x03, 0x42, 0x36, 0x67, 0xdb, 0xb7, 0x3b, 0x6e, 0x15, 0x45, 0x4f, 0x0e, 0xb1, 0xab,
     0xd4, 0x59, 0x7f, 0x9a, 0x1b, 0x07, 0x8e, 0x3f, 0x5b, 0x5a, 0x6b, 0xc7] := by
  decide!

theorem hash_nil_256 : hash [] 0 32 = .ok
    [0xa7, 0xff, 0xc6, 0xf8, 0xbf, 0x1e, 0xd7, 0x66, 0x51, 0xc1, 0x47, 0x56, 0xa0, 0x61, 0xd6, 0x62,
     0xf5, 0x80, 0xff, 0x4d, 0xe4, 0x3b, 0x49, 0xfa, 0x82, 0xd8, 0x0a, 0x4b, 0x80, 0xf8, 0x43, 0x4a] := by
  decide!

theorem hash_nil_384 : hash [] 0 48 = .ok
    [0x0c, 0x63, 0xa7, 0x5b, 0x84, 0x5e, 0x4f, 0x7d, 0x01, 0x10, 0x7d, 0x85, 0x2e, 0x4c, 0x24, 0x85,
     0xc5, 0x1a, 0x50, 0xaa, 0xaa, 0x94, 0xfc, 0x61, 0x99, 0x5e, 0x71, 0xbb, 0xee, 0x98, 0x3a, 0x2a,
     0xc3, 0x71, 0x38, 0x31, 0x26, 0x4a, 0xdb, 0x47, 0xfb, 0x6b, 0xd1, 0xe0, 0x58, 0xd5, 0xf0, 0x04] := by
  decide!

theorem hash_nil_512 : hash [] 0 64 = .ok
    [0xa6, 0x9f, 0x73, 0xcc, 0xa2, 0x3a, 0x9a, 0xc5, 0xc8, 0xb5, 0x67, 0xdc, 0x18, 0x5a, 0x75, 0x6e,
     0x97, 0xc9, 0x82, 0x16, 0x4f, 0xe2, 0x58, 0x59, 0xe0, 0xd1, 0xdc, 0xc1, 0x47, 0x5c, 0x80, 0xa6,
     0x15, 0xb2, 0x12, 0x3a, 0xf1, 0xf5, 0xf9, 0x4c, 0x11, 0xe3, 0xe9, 0x40, 0x2c, 0x3a, 0xc5, 0x58,
     0xf5, 0x00, 0x19, 0x9d, 0x95, 0xb6, 0xd3, 0xe3, 0x01, 0x75, 0x85, 0x86, 0x28, 0x1d, 0xcd, 0x26] := by
  decide!

theorem reference_digest_abc : reference.digest [0x61, 0x62, 0x63] 32 =
    [0x3a, 0x98, 0x5d, 0xa7, 0x4f, 0xe2, 0x25, 0xb2, 0x04, 0x5c, 0x17, 0x2d, 0x6b, 0xd3, 0x90, 0xbd,
     0x85, 0x5f, 0x08, 0x6e, 0x3e, 0x9d, 0x52, 0x5b, 0x46, 0xbf, 0xe2, 0x45, 0x11, 0x43, 0x15, 0x32] := by
  decide!

theorem lastBlock_rate_152 : lastBlock [] 0 (200 - 2 * 24) = .error .outOfBounds := by
  decide!

theorem hash_zero_length (mdlen : Nat) (h : mdlen = 28 ∨ mdlen = 32 ∨ mdlen = 48 ∨ mdlen = 64)
    (inp : List Byte) : hash inp 0 (mdlen : Int) = hash [] 0 (mdlen : Int) := by
  obtain ⟨h1, h2, h4⟩ := supported_rate mdlen h
  have a := hash_eq mdlen h1 h2 h4 inp 0 (Nat.zero_le _)
  have b := hash_eq mdlen h1 h2 h4 [] 0 (Nat.zero_le _)
  rw [List.take_zero] at a b
  change hash inp ((0 : Nat) : Int) (mdlen : Int) = hash [] ((0 : Nat) : Int) (mdlen : Int)
  rw [a, b]

/-! ## The claims -/

/-- C1: for every digest length `mdlen` in 28, 32, 48, 64 and every message `M`, `hash` called
with `inlen` the length of `M` returns the digest of the SHA-3 sponge of the specification:
`M` followed by the padding of length `q = rsiz - (n mod rsiz)` is cut into blocks of `rsiz`
bytes, each block is XORed as `rsiz / 8` little-endian words into the first lanes of the state,
which starts all zero, and followed by `keccakf` with 24 rounds; the digest is the first `mdlen`
bytes of the little-endian bytes of the final state. -/
theorem hash_eq_reference_digest (mdlen : Nat)
    (h : mdlen = 28 ∨ mdlen = 32 ∨ mdlen = 48 ∨ mdlen = 64) (M : List Byte) :
    hash M (M.length : Int) (mdlen : Int) = .ok (reference.digest M mdlen) := by
  obtain ⟨h1, h2, h4⟩ := supported_rate mdlen h
  have := hash_eq mdlen h1 h2 h4 M M.length (Nat.le_refl _)
  rw [List.take_length] at this
  exact this

/-- The theorem of C1 at the message `abc` and digest length 32, where the digest of the
specification is 3a985da74fe225b2045c172d6bd390bd855f086e3e9d525b46bfe24511431532. -/
theorem hash_eq_reference_digest_witness :
    ((32 : Nat) = 28 ∨ (32 : Nat) = 32 ∨ (32 : Nat) = 48 ∨ (32 : Nat) = 64) ∧
    hash [0x61, 0x62, 0x63] (([0x61, 0x62, 0x63] : List Byte).length : Int) ((32 : Nat) : Int)
      = .ok
    [0x3a, 0x98, 0x5d, 0xa7, 0x4f, 0xe2, 0x25, 0xb2, 0x04, 0x5c, 0x17, 0x2d, 0x6b, 0xd3, 0x90, 0xbd,
     0x85, 0x5f, 0x08, 0x6e, 0x3e, 0x9d, 0x52, 0x5b, 0x46, 0xbf, 0xe2, 0x45, 0x11, 0x43, 0x15, 0x32] :=
  ⟨by decide,
    (hash_eq_reference_digest 32 (by decide) [0x61, 0x62, 0x63]).trans
      (congrArg Except.ok reference_digest_abc)⟩

/-- C2: with `inlen = 0` and digest length 32, whatever buffer `in` points to, `hash` returns
the published SHA3-256 digest of the empty string,
a7ffc6f8bf1ed76651c14756a061d662f580ff4de43b49fa82d80a4b80f8434a. -/
theorem hash_empty_256 (inp : List Byte) : hash inp 0 32 = .ok
    [0xa7, 0xff, 0xc6, 0xf8, 0xbf, 0x1e, 0xd7, 0x66, 0x51, 0xc1, 0x47, 0x56, 0xa0, 0x61, 0xd6, 0x62,
     0xf5, 0x80, 0xff, 0x4d, 0xe4, 0x3b, 0x49, 0xfa, 0x82, 0xd8, 0x0a, 0x4b, 0x80, 0xf8, 0x43, 0x4a] := by
  have := hash_zero_length 32 (by decide) inp
  change hash inp 0 32 = hash [] 0 32 at this
  rw [this, hash_nil_256]

/-- C3: with `inlen = 0`, whatever buffer `in` points to, `hash` returns the published SHA-3
digests of the empty string for the digest lengths 28 (6b4e0342...5a6bc7), 48
(0c63a75b...58d5f004) and 64 (a69f73cc...281dcd26). -/
theorem hash_empty_224_384_512 (inp : List Byte) :
    hash inp 0 28 = .ok
    [0x6b, 0x4e, 0x03, 0x42, 0x36, 0x67, 0xdb, 0xb7, 0x3b, 0x6e, 0x15, 0x45, 0x4f, 0x0e, 0xb1, 0xab,
     0xd4, 0x59, 0x7f, 0x9a, 0x1b, 0x07, 0x8e, 0x3f, 0x5b, 0x5a, 0x6b, 0xc7] ∧
    hash inp 0 48 = .ok
    [0x0c, 0x63, 0xa7, 0x5b, 0x84, 0x5e, 0x4f, 0x7d, 0x01, 0x10, 0x7d, 0x85, 0x2e, 0x4c, 0x24, 0x85,
     0xc5, 0x1a, 0x50, 0xaa, 0xaa, 0x94, 0xfc, 0x61, 0x99, 0x5e, 0x71, 0xbb, 0xee, 0x98, 0x3a, 0x2a,
     0xc3, 0x71, 0x38, 0x31, 0x26, 0x4a, 0xdb, 0x47, 0xfb, 0x6b, 0xd1, 0xe0, 0x58, 0xd5, 0xf0, 0x04] ∧
    hash inp 0 64 = .ok
    [0xa6, 0x9f, 0x73, 0xcc, 0xa2, 0x3a, 0x9a, 0xc5, 0xc8, 0xb5, 0x67, 0xdc, 0x18, 0x5a, 0x75, 0x6e,
     0x97, 0xc9, 0x82, 0x16, 0x4f, 0xe2, 0x58, 0x59, 0xe0, 0xd1, 0xdc, 0xc1, 0x47, 0x5c, 0x80, 0xa6,
     0x15, 0xb2, 0x12, 0x3a, 0xf1, 0xf5, 0xf9, 0x4c, 0x11, 0xe3, 0xe9, 0x40, 0x2c, 0x3a, 0xc5, 0x58,
     0xf5, 0x00, 0x19, 0x9d, 0x95, 0xb6, 0xd3, 0xe3, 0x01, 0x75, 0x85, 0x86, 0x28, 0x1d, 0xcd, 0x26] := by
  have a := hash_zero_length 28 (by decide) inp
  have b := hash_zero_length 48 (by decide) inp
  have c := hash_zero_length 64 (by decide) inp
  change hash inp 0 28 = hash [] 0 28 at a
  change hash inp 0 48 = hash [] 0 48 at b
  change hash inp 0 64 = hash [] 0 64 at c
  rw [a, b, c]
  exact ⟨hash_nil_224, hash_nil_384, hash_nil_512⟩

/-- C4: for digest length 32 (rate 136) and the message of 200 bytes `0xA3`, `hash` returns the
NIST SHA3-256 example digest
79f38adec5c20307a98ef76e8324afbfd46cfd81b22e3973c65fa1bd9de31787, and it does so through the
absorbing loop: the loop makes one pass and leaves 64 bytes for the padded last block. -/
theorem hash_a3_200 :
    hash (List.replicate 200 0xA3) 200 32 = .ok
    [0x79, 0xf3, 0x8a, 0xde, 0xc5, 0xc2, 0x03, 0x07, 0xa9, 0x8e, 0xf7, 0x6e, 0x83, 0x24, 0xaf, 0xbf,
     0xd4, 0x6c, 0xfd, 0x81, 0xb2, 0x2e, 0x39, 0x73, 0xc6, 0x5f, 0xa1, 0xbd, 0x9d, 0xe3, 0x17, 0x87] ∧
    (absorb (200 - 2 * 32) (Int.tdiv (200 - 2 * 32) 8) (Int.toNat 200 + 1)
        ⟨List.replicate 25 0, List.replicate 200 0xA3, 200, 0⟩).map
        (fun a => (a.passes, a.inlen, a.inp)) = .ok (1, 64, List.replicate 64 0xA3) := by
  decide!

/-- C5: `temp` has 144 bytes, the rate of the digest length 28, and no supported digest length
has a larger rate; so for every supported digest length and every buffer that holds `inlen`
bytes the loop leaves `0 <= inlen < rsiz`, the lines of the last block (the copy of the
`inlen` bytes, the byte 6 at `inlen`, the fill up to `rsiz`, the byte `rsiz - 1`) and the read
of the `rsiz / 8` words all stay inside `temp`: none of them faults, and every index they
use is below 144. -/
theorem temp_holds_every_rate (mdlen : Nat)
    (h : mdlen = 28 ∨ mdlen = 32 ∨ mdlen = 48 ∨ mdlen = 64)
    (inp : List Byte) (n : Nat) (hl : n ≤ inp.length) :
    temp0.length = 144 ∧ 200 - 2 * (28 : Int) = 144 ∧ 200 - 2 * (mdlen : Int) ≤ 144 ∧
    ∃ a temp st,
      absorb (200 - 2 * (mdlen : Int)) (Int.tdiv (200 - 2 * (mdlen : Int)) 8) ((n : Int).toNat + 1)
        ⟨List.replicate 25 0, inp, n, 0⟩ = .ok a ∧
      (0 ≤ a.inlen ∧ a.inlen < 200 - 2 * (mdlen : Int)) ∧
      lastBlock a.inp a.inlen (200 - 2 * (mdlen : Int)) = .ok temp ∧
      temp.length = 144 ∧
      xorLanes (loadTemp64 temp) (Int.tdiv (200 - 2 * (mdlen : Int)) 8) a.st = .ok st ∧
      (a.inlen < 144 ∧ (a.inlen + 1) + (200 - 2 * (mdlen : Int) - (a.inlen + 1)) ≤ 144 ∧
        200 - 2 * (mdlen : Int) - 1 < 144 ∧
        8 * Int.tdiv (200 - 2 * (mdlen : Int)) 8 ≤ 144) := by
  obtain ⟨h1, h2, h4⟩ := supported_rate mdlen h
  obtain ⟨e1, e2, hr8, hr0, hr⟩ := rate_of_mdlen mdlen h1 h2 h4
  refine ⟨by simp [temp0], by decide, by omega, ?_⟩
  have hmodlt : n % (200 - 2 * mdlen) < 200 - 2 * mdlen := Nat.mod_lt _ hr0
  have hmodle : n % (200 - 2 * mdlen) ≤ n := Nat.mod_le _ _
  have habs := absorb_eq (200 - 2 * mdlen) ((200 - 2 * mdlen) / 8) hr8 hr0 hr (n + 1)
    ⟨List.replicate 25 0, inp, (n : Int), 0⟩ n rfl hl (by simp)
    (Nat.lt_of_lt_of_le (Nat.lt_succ_self n) (Nat.le_mul_of_pos_right _ hr0))
  have hlast := lastBlock_eq (inp.drop (n - n % (200 - 2 * mdlen))) (n % (200 - 2 * mdlen))
    (200 - 2 * mdlen) hmodlt hr (by rw [List.length_drop]; omega)
  have hlenB : (List.take (n % (200 - 2 * mdlen)) (inp.drop (n - n % (200 - 2 * mdlen)))
      ++ padding (200 - 2 * mdlen - n % (200 - 2 * mdlen))).length = 200 - 2 * mdlen := by
    rw [List.length_append, length_padding _ (by omega), List.length_take, List.length_drop]
    omega
  simp only [] at habs
  rw [e1, e2, Int.toNat_ofNat]
  refine ⟨⟨absorbBlocks (200 - 2 * mdlen) (List.replicate 25 0)
      (List.take (n - n % (200 - 2 * mdlen)) inp), List.drop (n - n % (200 - 2 * mdlen)) inp,
      ((n % (200 - 2 * mdlen) : Nat) : Int), 0 + n / (200 - 2 * mdlen)⟩,
    List.map some (List.take (n % (200 - 2 * mdlen)) (List.drop (n - n % (200 - 2 * mdlen)) inp)
      ++ padding (200 - 2 * mdlen - n % (200 - 2 * mdlen)))
      ++ List.replicate (144 - (200 - 2 * mdlen)) none,
    xorBlock ((200 - 2 * mdlen) / 8) (absorbBlocks (200 - 2 * mdlen) (List.replicate 25 0)
      (List.take (n - n % (200 - 2 * mdlen)) inp))
      (List.take (n % (200 - 2 * mdlen)) (List.drop (n - n % (200 - 2 * mdlen)) inp)
      ++ padding (200 - 2 * mdlen - n % (200 - 2 * mdlen))),
    habs, ⟨Int.ofNat_zero_le _, ?_⟩, hlast, ?_, ?_, ?_⟩
  · simp only []
    omega
  · rw [List.length_append, List.length_map, hlenB, List.length_replicate]; omega
  · exact xorLanes_eq _ _ _ _ (fun i hi => loadTemp64_eq _ _ i (by omega))
      (by rw [length_absorbBlocks]; simp; omega)
  · simp only []
    omega

/-- The theorem of C5 at digest length 28 and a message of 143 bytes. -/
theorem temp_holds_every_rate_witness :
    ((28 : Nat) = 28 ∨ (28 : Nat) = 32 ∨ (28 : Nat) = 48 ∨ (28 : Nat) = 64) ∧
    143 ≤ (List.replicate 143 (0xA3 : Byte)).length ∧
    temp0.length = 144 ∧ 200 - 2 * (28 : Int) = 144 ∧ 200 - 2 * ((28 : Nat) : Int) ≤ 144 ∧
    ∃ a temp st,
      absorb (200 - 2 * ((28 : Nat) : Int)) (Int.tdiv (200 - 2 * ((28 : Nat) : Int)) 8)
        (((143 : Nat) : Int).toNat + 1)
        ⟨List.replicate 25 0, List.replicate 143 0xA3, (143 : Nat), 0⟩ = .ok a ∧
      (0 ≤ a.inlen ∧ a.inlen < 200 - 2 * ((28 : Nat) : Int)) ∧
      lastBlock a.inp a.inlen (200 - 2 * ((28 : Nat) : Int)) = .ok temp ∧
      temp.length = 144 ∧
      xorLanes (loadTemp64 temp) (Int.tdiv (200 - 2 * ((28 : Nat) : Int)) 8) a.st = .ok st ∧
      (a.inlen < 144 ∧
        (a.inlen + 1) + (200 - 2 * ((28 : Nat) : Int) - (a.inlen + 1)) ≤ 144 ∧
        200 - 2 * ((28 : Nat) : Int) - 1 < 144 ∧
        8 * Int.tdiv (200 - 2 * ((28 : Nat) : Int)) 8 ≤ 144) :=
  ⟨by decide, by simp,
    temp_holds_every_rate 28 (by decide) (List.replicate 143 0xA3) 143 (by simp)⟩

/-- C6: with the iteration count 1 the iterated `hash` returns what the `hash` without a count
returns, for every buffer, every `inlen` and every digest length, the supported ones
among them. -/
theorem hash_iterate_one (inp : List Byte) (inlen mdlen : Int) :
    hash_iterate inp inlen mdlen 1 = hash inp inlen mdlen := by
  rw [hash_iterate_eq]
  have : (wrap32 (1 - 1)).toNat = 0 := by unfold wrap32; omega
  rw [this]
  cases hash inp inlen mdlen <;> rfl

/-- C7: for an iteration count `k > 1` (an `int`), a supported digest length and a buffer that
holds `inlen` bytes, the iterated `hash` with count `k` is `hash` of the digest `D` that the
count `k - 1` gives, `D` has `mdlen` bytes, and the result is the map `x ↦ hash(x, mdlen, mdlen)`
applied `k - 1` times to the digest of the message. -/
theorem hash_iterate_succ (mdlen : Nat) (h : mdlen = 28 ∨ mdlen = 32 ∨ mdlen = 48 ∨ mdlen = 64)
    (inp : List Byte) (n : Nat) (hl : n ≤ inp.length) (k : Int) (hk : 1 < k) (hk2 : k < 2 ^ 31) :
    (hash_iterate inp n mdlen k
      = hash_iterate inp n mdlen (k - 1) >>= fun D => hash D mdlen mdlen) ∧
    (∃ D, hash_iterate inp n mdlen (k - 1) = .ok D ∧ D.length = mdlen ∧
      hash_iterate inp n mdlen k = hash D mdlen mdlen) ∧
    (hash_iterate inp n mdlen k
      = Nat.iterate (fun r => r >>= fun D => hash D mdlen mdlen) (k - 1).toNat
          (hash inp n mdlen)) ∧
    (hash_iterate inp n mdlen k
      = .ok (Nat.iterate (fun D => reference.digest D mdlen) (k - 1).toNat
          (reference.digest (inp.take n) mdlen))) := by
  obtain ⟨h1, h2, h4⟩ := supported_rate mdlen h
  obtain ⟨j, hj⟩ : ∃ j : Nat, (k - 1).toNat = j + 1 := ⟨(k - 1).toNat - 1, by omega⟩
  have hw : wrap32 (k - 1) = k - 1 := wrap32_of_range _ (by omega) (by omega)
  have hw' : wrap32 (k - 1 - 1) = k - 1 - 1 := wrap32_of_range _ (by omega) (by omega)
  have hj' : (k - 1 - 1).toNat = j := by omega
  have hlen : (reference.digest (inp.take n) mdlen).length = mdlen :=
    length_digest _ _ (by omega)
  have hiter : ∀ i : Nat, (Nat.iterate (fun D => reference.digest D mdlen) i
      (reference.digest (inp.take n) mdlen)).length = mdlen := by
    intro i
    cases i with
    | zero => exact hlen
    | succ i => rw [Function.iterate_succ_apply']; exact length_digest _ _ (by omega)
  have ek : hash_iterate inp n mdlen k
      = .ok (Nat.iterate (fun D => reference.digest D mdlen) (j + 1)
          (reference.digest (inp.take n) mdlen)) := by
    rw [hash_iterate_eq, hw, hj, hash_eq mdlen h1 h2 h4 inp n hl]
    exact rehashTimes_eq_digest mdlen h1 h2 h4 (j + 1) _ hlen
  have ek1 : hash_iterate inp n mdlen (k - 1)
      = .ok (Nat.iterate (fun D => reference.digest D mdlen) j
          (reference.digest (inp.take n) mdlen)) := by
    rw [hash_iterate_eq, hw', hj', hash_eq mdlen h1 h2 h4 inp n hl]
    exact rehashTimes_eq_digest mdlen h1 h2 h4 j _ hlen
  have estep : hash (Nat.iterate (fun D => reference.digest D mdlen) j
      (reference.digest (inp.take n) mdlen)) mdlen mdlen
      = .ok (Nat.iterate (fun D => reference.digest D mdlen) (j + 1)
          (reference.digest (inp.take n) mdlen)) := by
    rw [hash_eq mdlen h1 h2 h4 _ mdlen (by rw [hiter j]),
      List.take_of_length_le (by rw [hiter j]), Function.iterate_succ_apply']
  refine ⟨?_, ⟨_, ek1, hiter j, ?_⟩, ?_, ?_⟩
  · rw [ek, ek1]
    exact estep.symm
  · rw [ek, estep]
  · rw [hash_iterate_eq, hw, bind_rehashTimes_eq_iterate]
  · rw [ek, hj]

/-- The theorem of C7 at the empty message, digest length 32 and count 3. -/
theorem hash_iterate_succ_witness :
    ((32 : Nat) = 28 ∨ (32 : Nat) = 32 ∨ (32 : Nat) = 48 ∨ (32 : Nat) = 64) ∧
    (0 : Nat) ≤ ([] : List Byte).length ∧ (1 : Int) < 3 ∧ (3 : Int) < 2 ^ 31 ∧
    (hash_iterate [] (0 : Nat) (32 : Nat) 3
      = hash_iterate [] (0 : Nat) (32 : Nat) (3 - 1) >>= fun D => hash D (32 : Nat) (32 : Nat)) ∧
    (∃ D, hash_iterate [] (0 : Nat) (32 : Nat) (3 - 1) = .ok D ∧ D.length = 32 ∧
      hash_iterate [] (0 : Nat) (32 : Nat) 3 = hash D (32 : Nat) (32 : Nat)) ∧
    (hash_iterate [] (0 : Nat) (32 : Nat) 3
      = Nat.iterate (fun r => r >>= fun D => hash D (32 : Nat) (32 : Nat)) ((3 : Int) - 1).toNat
          (hash [] (0 : Nat) (32 : Nat))) ∧
    (hash_iterate [] (0 : Nat) (32 : Nat) 3
      = .ok (Nat.iterate (fun D => reference.digest D 32) ((3 : Int) - 1).toNat
          (reference.digest (([] : List Byte).take 0) 32))) :=
  ⟨by decide, by decide, by decide, by decide,
    hash_iterate_succ 32 (by decide) [] 0 (by decide) 3 (by decide) (by decide)⟩

theorem hashState_of_message (mdlen : Nat) (h1 : 28 ≤ mdlen) (h2 : mdlen < 100)
    (h4 : mdlen % 4 = 0) (D : List Byte) :
    hashState D (D.length : Int) (mdlen : Int)
      = .ok (finalState D mdlen, D.length / (200 - 2 * mdlen) + 1) := by
  have := hashState_eq mdlen h1 h2 h4 D D.length (Nat.le_refl _)
  rw [List.take_length] at this
  exact this

theorem iterate_digest_is_digest (mdlen : Nat) (j : Nat) (M : List Byte) :
    ∃ D, Nat.iterate (fun D => digest D mdlen) j (digest M mdlen) = digest D mdlen := by
  cases j with
  | zero => exact ⟨M, rfl⟩
  | succ j => exact ⟨_, Function.iterate_succ_apply' _ _ _⟩

/-- C8: for a supported digest length `mdlen` and a buffer that holds `inlen` bytes, `hash`
returns exactly `mdlen` bytes and they are the first `mdlen` bytes of the final state; the
iterated `hash` does so for every iteration count, the final state being that of its last
pass; `sum224`, `sum256`, `sum384` and `sum512` return 28, 32, 48 and 64 bytes. -/
theorem digest_length {T : Type} (repr : T → List Byte) (buf : List T) (n : Nat)
    (hl : n ≤ (bytesOf repr buf).length) (mdlen : Nat)
    (h : mdlen = 28 ∨ mdlen = 32 ∨ mdlen = 48 ∨ mdlen = 64) :
    (∃ md st c, hash (bytesOf repr buf) n mdlen = .ok md ∧ md.length = mdlen ∧
      hashState (bytesOf repr buf) n mdlen = .ok (st, c) ∧
      md = (stateBytes st).take mdlen) ∧
    (∀ k : Int, ∃ md D st c, hash_iterate (bytesOf repr buf) n mdlen k = .ok md ∧
      md.length = mdlen ∧ hashState D D.length mdlen = .ok (st, c) ∧
      md = (stateBytes st).take mdlen) ∧
    (∃ md, sum224 repr buf n = .ok md ∧ md.length = 28) ∧
    (∃ md, sum256 repr buf n = .ok md ∧ md.length = 32) ∧
    (∃ md, sum384 repr buf n = .ok md ∧ md.length = 48) ∧
    (∃ md, sum512 repr buf n = .ok md ∧ md.length = 64) := by
  obtain ⟨h1, h2, h4⟩ := supported_rate mdlen h
  refine ⟨⟨_, _, _, hash_eq mdlen h1 h2 h4 _ n hl, length_digest _ _ (by omega),
    hashState_eq mdlen h1 h2 h4 _ n hl, rfl⟩, ?_,
    ⟨_, hash_eq 28 (by decide) (by decide) (by decide) _ n hl, length_digest _ _ (by decide)⟩,
    ⟨_, hash_eq 32 (by decide) (by decide) (by decide) _ n hl, length_digest _ _ (by decide)⟩,
    ⟨_, hash_eq 48 (by decide) (by decide) (by decide) _ n hl, length_digest _ _ (by decide)⟩,
    ⟨_, hash_eq 64 (by decide) (by decide) (by decide) _ n hl, length_digest _ _ (by decide)⟩⟩
  intro k
  obtain ⟨D, hD⟩ := iterate_digest_is_digest mdlen (wrap32 (k - 1)).toNat
    ((bytesOf repr buf).take n)
  refine ⟨_, D, _, _, ?_, ?_, hashState_of_message mdlen h1 h2 h4 D, rfl⟩
  · rw [hash_iterate_eq, hash_eq mdlen h1 h2 h4 _ n hl]
    change rehashTimes (mdlen : Int) _ _ = _
    rw [rehashTimes_eq_digest mdlen h1 h2 h4 _ _ (length_digest _ _ (by omega)), hD]
    rfl
  · exact length_digest _ _ (by omega)

/-- The theorem of C8 at a buffer of two 4-byte elements, 8 bytes and digest length 48. -/
theorem digest_length_witness :
    8 ≤ (bytesOf (fun x : Byte => [x, 0, 0, 0]) [1, 2]).length ∧
    ((48 : Nat) = 28 ∨ (48 : Nat) = 32 ∨ (48 : Nat) = 48 ∨ (48 : Nat) = 64) ∧
    (∃ md st c, hash (bytesOf (fun x : Byte => [x, 0, 0, 0]) [1, 2]) (8 : Nat) (48 : Nat) = .ok md ∧
      md.length = 48 ∧
      hashState (bytesOf (fun x : Byte => [x, 0, 0, 0]) [1, 2]) (8 : Nat) (48 : Nat)
        = .ok (st, c) ∧
      md = (stateBytes st).take 48) ∧
    (∀ k : Int, ∃ md D st c,
      hash_iterate (bytesOf (fun x : Byte => [x, 0, 0, 0]) [1, 2]) (8 : Nat) (48 : Nat) k
        = .ok md ∧
      md.length = 48 ∧ hashState D D.length (48 : Nat) = .ok (st, c) ∧
      md = (stateBytes st).take 48) ∧
    (∃ md, sum224 (fun x : Byte => [x, 0, 0, 0]) [1, 2] (8 : Nat) = .ok md ∧ md.length = 28) ∧
    (∃ md, sum256 (fun x : Byte => [x, 0, 0, 0]) [1, 2] (8 : Nat) = .ok md ∧ md.length = 32) ∧
    (∃ md, sum384 (fun x : Byte => [x, 0, 0, 0]) [1, 2] (8 : Nat) = .ok md ∧ md.length = 48) ∧
    (∃ md, sum512 (fun x : Byte => [x, 0, 0, 0]) [1, 2] (8 : Nat) = .ok md ∧ md.length = 64) :=
  ⟨by decide, by decide,
    digest_length (fun x : Byte => [x, 0, 0, 0]) [1, 2] 8 (by decide) 48 (by decide)⟩

/-- C9: each of `sum224`, `sum256`, `sum384`, `sum512` is `hash` with the digest length 28, 32,
48, 64 on the bytes of the caller's array, with `inlen` passed on unchanged as a count of
bytes: for every element type and every `inlen >= 0` the result is `hash` of the first
`inlen` bytes of the buffer. -/
theorem sum_eq_hash {T : Type} (repr : T → List Byte) (buf : List T) (n : Nat) :
    (sum224 repr buf n = hash (bytesOf repr buf) n 28 ∧
      sum224 repr buf n = hash ((bytesOf repr buf).take n) n 28) ∧
    (sum256 repr buf n = hash (bytesOf repr buf) n 32 ∧
      sum256 repr buf n = hash ((bytesOf repr buf).take n) n 32) ∧
    (sum384 repr buf n = hash (bytesOf repr buf) n 48 ∧
      sum384 repr buf n = hash ((bytesOf repr buf).take n) n 48) ∧
    (sum512 repr buf n = hash (bytesOf repr buf) n 64 ∧
      sum512 repr buf n = hash ((bytesOf repr buf).take n) n 64) := by
  have key : ∀ mdlen : Nat, 28 ≤ mdlen → mdlen < 100 → mdlen % 4 = 0 →
      hash (bytesOf repr buf) n mdlen = hash ((bytesOf repr buf).take n) n mdlen := by
    intro mdlen h1 h2 h4
    by_cases hl : n ≤ (bytesOf repr buf).length
    · rw [hash_eq mdlen h1 h2 h4 _ n hl,
        hash_eq mdlen h1 h2 h4 _ n (by rw [List.length_take]; omega), List.take_take,
        Nat.min_self]
    · rw [List.take_of_length_le (by omega)]
  exact ⟨⟨rfl, key 28 (by decide) (by decide) (by decide)⟩,
    ⟨rfl, key 32 (by decide) (by decide) (by decide)⟩,
    ⟨rfl, key 48 (by decide) (by decide) (by decide)⟩,
    ⟨rfl, key 64 (by decide) (by decide) (by decide)⟩⟩

/-! ## The bytes of the padding -/

theorem padding_one : padding 1 = [0x86] := by
  simp [padding]

theorem padding_add_two (m : Nat) : padding (m + 2) = 0x06 :: (List.replicate m 0 ++ [0x80]) := by
  simp [padding]

theorem padding_first (q : Nat) (hq : 2 ≤ q) : (padding q)[0]? = some 0x06 := by
  obtain ⟨m, rfl⟩ : ∃ m, q = m + 2 := ⟨q - 2, by omega⟩
  rw [padding_add_two, List.getElem?_cons_zero]

theorem padding_middle (q i : Nat) (h0 : 0 < i) (hi : i + 1 < q) : (padding q)[i]? = some 0 := by
  obtain ⟨m, rfl⟩ : ∃ m, q = m + 2 := ⟨q - 2, by omega⟩
  obtain ⟨j, rfl⟩ : ∃ j, i = j + 1 := ⟨i - 1, by omega⟩
  rw [padding_add_two, List.getElem?_cons_succ, List.getElem?_append_left (by simp; omega),
    List.getElem?_replicate_of_lt (by omega)]

theorem padding_last (q : Nat) (hq : 2 ≤ q) : (padding q)[q - 1]? = some 0x80 := by
  obtain ⟨m, rfl⟩ : ∃ m, q = m + 2 := ⟨q - 2, by omega⟩
  have : m + 2 - 1 = m + 1 := by omega
  rw [padding_add_two, this, List.getElem?_cons_succ, List.getElem?_append_right (by simp)]
  simp

/-- C10: for a supported digest length, with `rsiz = 200 - 2 mdlen`, and `n < rsiz` bytes left
in a buffer that holds them, the last block is written to `temp` without fault, the words
XORed into the state are those of its first `rsiz` bytes `B` (`8 (rsiz / 8) = rsiz`), and `B`
is: the `n` bytes left, then `0x06` at `n`, zero from `n + 1` to `rsiz - 2`, and at `rsiz - 1`
the byte `0x80` when `n < rsiz - 1` and `0x86` when `n = rsiz - 1`; for `n = 0` it is `0x06`,
zeros, `0x80`. -/
theorem last_block_padding (mdlen : Nat)
    (h : mdlen = 28 ∨ mdlen = 32 ∨ mdlen = 48 ∨ mdlen = 64)
    (inp : List Byte) (n : Nat) (hl : n ≤ inp.length) (hn : n < 200 - 2 * mdlen)
    (st : List Nat) (hst : st.length = 25) :
    ∃ B : List Byte,
      lastBlock inp n (200 - 2 * (mdlen : Int))
        = .ok (B.map some ++ List.replicate (144 - (200 - 2 * mdlen)) none) ∧
      xorLanes (loadTemp64 (B.map some ++ List.replicate (144 - (200 - 2 * mdlen)) none))
        (Int.tdiv (200 - 2 * (mdlen : Int)) 8) st
        = .ok (st.mapIdx fun i lane =>
            if i < (200 - 2 * mdlen) / 8 then lane ^^^ leWord ((B.drop (8 * i)).take 8)
            else lane) ∧
      8 * ((200 - 2 * mdlen) / 8) = 200 - 2 * mdlen ∧
      B.length = 200 - 2 * mdlen ∧
      (∀ i, i < n → B[i]? = inp[i]?) ∧
      (n < 200 - 2 * mdlen - 1 → B[n]? = some 0x06) ∧
      (∀ i, n < i → i < 200 - 2 * mdlen - 1 → B[i]? = some 0) ∧
      (n < 200 - 2 * mdlen - 1 → B[200 - 2 * mdlen - 1]? = some 0x80) ∧
      (n = 200 - 2 * mdlen - 1 → B[200 - 2 * mdlen - 1]? = some 0x86) ∧
      (n = 0 → B = 0x06 :: (List.replicate (200 - 2 * mdlen - 2) 0 ++ [0x80])) := by
  obtain ⟨h1, h2, h4⟩ := supported_rate mdlen h
  obtain ⟨e1, e2, hr8, hr0, hr⟩ := rate_of_mdlen mdlen h1 h2 h4
  have hT : (inp.take n).length = n := by rw [List.length_take]; omega
  have hlenB : (inp.take n ++ padding (200 - 2 * mdlen - n)).length = 200 - 2 * mdlen := by
    rw [List.length_append, length_padding _ (by omega), hT]; omega
  refine ⟨inp.take n ++ padding (200 - 2 * mdlen - n), ?_, ?_, by omega, hlenB, ?_, ?_, ?_,
    ?_, ?_, ?_⟩
  · rw [e1]
    exact lastBlock_eq inp n _ hn hr hl
  · rw [e1, e2]
    exact xorLanes_eq _ _ _ _ (fun i hi => loadTemp64_eq _ _ i (by omega)) (by omega)
  · intro i hi
    rw [List.getElem?_append_left (by omega), List.getElem?_take_of_lt hi]
  · intro hlt
    rw [List.getElem?_append_right (by omega), hT, Nat.sub_self]
    exact padding_first _ (by omega)
  · intro i hi hi2
    rw [List.getElem?_append_right (by omega), hT]
    exact padding_middle _ _ (by omega) (by omega)
  · intro hlt
    rw [List.getElem?_append_right (by omega), hT]
    have : 200 - 2 * mdlen - 1 - n = 200 - 2 * mdlen - n - 1 := by omega
    rw [this]
    exact padding_last _ (by omega)
  · intro heq
    have hq : 200 - 2 * mdlen - n = 1 := by omega
    rw [List.getElem?_append_right (by omega), hT, hq, padding_one]
    have : 200 - 2 * mdlen - 1 - n = 0 := by omega
    rw [this]
    rfl
  · intro h0
    subst h0
    obtain ⟨m, hm⟩ : ∃ m, 200 - 2 * mdlen = m + 2 := ⟨200 - 2 * mdlen - 2, by omega⟩
    rw [List.take_zero, List.nil_append, Nat.sub_zero, hm, padding_add_two]
    rfl

/-- The theorem of C10 at digest length 32 with 135 bytes left: the last byte is `0x86`. -/
theorem last_block_padding_witness :
    ((32 : Nat) = 28 ∨ (32 : Nat) = 32 ∨ (32 : Nat) = 48 ∨ (32 : Nat) = 64) ∧
    135 ≤ (List.replicate 135 (0xA3 : Byte)).length ∧ 135 < 200 - 2 * 32 ∧
    (List.replicate 25 0).length = 25 ∧
    ∃ B : List Byte,
      lastBlock (List.replicate 135 0xA3) (135 : Nat) (200 - 2 * ((32 : Nat) : Int))
        = .ok (B.map some ++ List.replicate (144 - (200 - 2 * 32)) none) ∧
      B[200 - 2 * 32 - 1]? = some 0x86 :=
  have ⟨B, hB, _, _, _, _, _, _, _, h86, _⟩ :=
    last_block_padding 32 (by decide) (List.replicate 135 0xA3) 135 (by simp) (by decide)
      (List.replicate 25 0) (by simp)
  ⟨by decide, by simp, by decide, by simp, B, hB, h86 (by decide)⟩

/-! ## Rotations -/

theorem testBit_high (x j : Nat) (hx : x < 2 ^ 64) (hj : 64 ≤ j) : x.testBit j = false :=
  Nat.testBit_lt_two_pow (Nat.lt_of_lt_of_le hx (Nat.pow_le_pow_right (by decide) hj))

theorem testBit_ROTL64 (x r j : Nat) (hx : x < 2 ^ 64) (h0 : 0 < r) (hr : r < 64)
    (hj : j < 64) : (ROTL64 x r).testBit j = x.testBit ((j + 64 - r) % 64) := by
  unfold ROTL64
  rw [Nat.testBit_or, Nat.testBit_mod_two_pow, Nat.testBit_shiftLeft, Nat.testBit_shiftRight]
  by_cases hjr : r ≤ j
  · have e : (j + 64 - r) % 64 = j - r := by omega
    have hhigh : x.testBit (64 - r + j) = false := testBit_high x _ hx (by omega)
    rw [e, hhigh]
    simp [hj, hjr]
  · have e : (j + 64 - r) % 64 = 64 - r + j := by omega
    rw [e]
    simp [hjr]

theorem ROTL64_lt (x r : Nat) (hx : x < 2 ^ 64) : ROTL64 x r < 2 ^ 64 := by
  unfold ROTL64
  apply Nat.or_lt_two_pow (Nat.mod_lt _ (by decide))
  rw [Nat.shiftRight_eq_div_pow]
  exact Nat.lt_of_le_of_lt (Nat.div_le_self _ _) hx

theorem testBit_high_ROTL64 (x r j : Nat) (hx : x < 2 ^ 64) (hj : 64 ≤ j) :
    (ROTL64 x r).testBit j = false :=
  testBit_high _ j (ROTL64_lt x r hx) hj

/-! ## States of 25 lanes -/

theorem state_cases (P : List Nat → Prop)
    (h : ∀ a0 a1 a2 a3 a4 a5 a6 a7 a8 a9 a10 a11 a12 a13 a14 a15 a16 a17 a18 a19 a20 a21 a22 a23 a24 : Nat,
      P [a0, a1, a2, a3, a4, a5, a6, a7, a8, a9, a10, a11, a12, a13, a14, a15, a16, a17, a18, a19, a20, a21, a22, a23, a24])
    (s : List Nat) (hs : s.length = 25) : P s := by
  rcases s with _ | ⟨a0, s⟩
  · simp at hs
  rcases s with _ | ⟨a1, s⟩
  · simp at hs
  rcases s with _ | ⟨a2, s⟩
  · simp at hs
  rcases s with _ | ⟨a3, s⟩
  · simp at hs
  rcases s with _ | ⟨a4, s⟩
  · simp at hs
  rcases s with _ | ⟨a5, s⟩
  · simp at hs
  rcases s with _ | ⟨a6, s⟩
  · simp at hs
  rcases s with _ | ⟨a7, s⟩
  · simp at hs
  rcases s with _ | ⟨a8, s⟩
  · simp at hs
  rcases s with _ | ⟨a9, s⟩
  · simp at hs
  rcases s with _ | ⟨a10, s⟩
  · simp at hs
  rcases s with _ | ⟨a11, s⟩
  · simp at hs
  rcases s with _ | ⟨a12, s⟩
  · simp at hs
  rcases s with _ | ⟨a13, s⟩
  · simp at hs
  rcases s with _ | ⟨a14, s⟩
  · simp at hs
  rcases s with _ | ⟨a15, s⟩
  · simp at hs
  rcases s with _ | ⟨a16, s⟩
  · simp at hs
  rcases s with _ | ⟨a17, s⟩
  · simp at hs
  rcases s with _ | ⟨a18, s⟩
  · simp at hs
  rcases s with _ | ⟨a19, s⟩
  · simp at hs
  rcases s with _ | ⟨a20, s⟩
  · simp at hs
  rcases s with _ | ⟨a21, s⟩
  · simp at hs
  rcases s with _ | ⟨a22, s⟩
  · simp at hs
  rcases s with _ | ⟨a23, s⟩
  · simp at hs
  rcases s with _ | ⟨a24, s⟩
  · simp at hs
  rcases s with _ | ⟨b, s⟩
  · exact h a0 a1 a2 a3 a4 a5 a6 a7 a8 a9 a10 a11 a12 a13 a14 a15 a16 a17 a18 a19 a20 a21 a22 a23 a24
  · simp at hs

theorem theta_lanes (a0 a1 a2 a3 a4 a5 a6 a7 a8 a9 a10 a11 a12 a13 a14 a15 a16 a17 a18 a19 a20 a21 a22 a23 a24 : Nat) :
    theta [a0, a1, a2, a3, a4, a5, a6, a7, a8, a9, a10, a11, a12, a13, a14, a15, a16, a17, a18, a19, a20, a21, a22, a23, a24] =
      [a0 ^^^ ((a4 ^^^ a9 ^^^ a14 ^^^ a19 ^^^ a24) ^^^ ROTL64 (a1 ^^^ a6 ^^^ a11 ^^^ a16 ^^^ a21) 1),
       a1 ^^^ ((a0 ^^^ a5 ^^^ a10 ^^^ a15 ^^^ a20) ^^^ ROTL64 (a2 ^^^ a7 ^^^ a12 ^^^ a17 ^^^ a22) 1),
       a2 ^^^ ((a1 ^^^ a6 ^^^ a11 ^^^ a16 ^^^ a21) ^^^ ROTL64 (a3 ^^^ a8 ^^^ a13 ^^^ a18 ^^^ a23) 1),
       a3 ^^^ ((a2 ^^^ a7 ^^^ a12 ^^^ a17 ^^^ a22) ^^^ ROTL64 (a4 ^^^ a9 ^^^ a14 ^^^ a19 ^^^ a24) 1),
       a4 ^^^ ((a3 ^^^ a8 ^^^ a13 ^^^ a18 ^^^ a23) ^^^ ROTL64 (a0 ^^^ a5 ^^^ a10 ^^^ a15 ^^^ a20) 1),
       a5 ^^^ ((a4 ^^^ a9 ^^^ a14 ^^^ a19 ^^^ a24) ^^^ ROTL64 (a1 ^^^ a6 ^^^ a11 ^^^ a16 ^^^ a21) 1),
       a6 ^^^ ((a0 ^^^ a5 ^^^ a10 ^^^ a15 ^^^ a20) ^^^ ROTL64 (a2 ^^^ a7 ^^^ a12 ^^^ a17 ^^^ a22) 1),
       a7 ^^^ ((a1 ^^^ a6 ^^^ a11 ^^^ a16 ^^^ a21) ^^^ ROTL64 (a3 ^^^ a8 ^^^ a13 ^^^ a18 ^^^ a23) 1),
       a8 ^^^ ((a2 ^^^ a7 ^^^ a12 ^^^ a17 ^^^ a22) ^^^ ROTL64 (a4 ^^^ a9 ^^^ a14 ^^^ a19 ^^^ a24) 1),
       a9 ^^^ ((a3 ^^^ a8 ^^^ a13 ^^^ a18 ^^^ a23) ^^^ ROTL64 (a0 ^^^ a5 ^^^ a10 ^^^ a15 ^^^ a20) 1),
       a10 ^^^ ((a4 ^^^ a9 ^^^ a14 ^^^ a19 ^^^ a24) ^^^ ROTL64 (a1 ^^^ a6 ^^^ a11 ^^^ a16 ^^^ a21) 1),
       a11 ^^^ ((a0 ^^^ a5 ^^^ a10 ^^^ a15 ^^^ a20) ^^^ ROTL64 (a2 ^^^ a7 ^^^ a12 ^^^ a17 ^^^ a22) 1),
       a12 ^^^ ((a1 ^^^ a6 ^^^ a11 ^^^ a16 ^^^ a21) ^^^ ROTL64 (a3 ^^^ a8 ^^^ a13 ^^^ a18 ^^^ a23) 1),
       a13 ^^^ ((a2 ^^^ a7 ^^^ a12 ^^^ a17 ^^^ a22) ^^^ ROTL64 (a4 ^^^ a9 ^^^ a14 ^^^ a19 ^^^ a24) 1),
       a14 ^^^ ((a3 ^^^ a8 ^^^ a13 ^^^ a18 ^^^ a23) ^^^ ROTL64 (a0 ^^^ a5 ^^^ a10 ^^^ a15 ^^^ a20) 1),
       a15 ^^^ ((a4 ^^^ a9 ^^^ a14 ^^^ a19 ^^^ a24) ^^^ ROTL64 (a1 ^^^ a6 ^^^ a11 ^^^ a16 ^^^ a21) 1),
       a16 ^^^ ((a0 ^^^ a5 ^^^ a10 ^^^ a15 ^^^ a20) ^^^ ROTL64 (a2 ^^^ a7 ^^^ a12 ^^^ a17 ^^^ a22) 1),
       a17 ^^^ ((a1 ^^^ a6 ^^^ a11 ^^^ a16 ^^^ a21) ^^^ ROTL64 (a3 ^^^ a8 ^^^ a13 ^^^ a18 ^^^ a23) 1),
       a18 ^^^ ((a2 ^^^ a7 ^^^ a12 ^^^ a17 ^^^ a22) ^^^ ROTL64 (a4 ^^^ a9 ^^^ a14 ^^^ a19 ^^^ a24) 1),
       a19 ^^^ ((a3 ^^^ a8 ^^^ a13 ^^^ a18 ^^^ a23) ^^^ ROTL64 (a0 ^^^ a5 ^^^ a10 ^^^ a15 ^^^ a20) 1),
       a20 ^^^ ((a4 ^^^ a9 ^^^ a14 ^^^ a19 ^^^ a24) ^^^ ROTL64 (a1 ^^^ a6 ^^^ a11 ^^^ a16 ^^^ a21) 1),
       a21 ^^^ ((a0 ^^^ a5 ^^^ a10 ^^^ a15 ^^^ a20) ^^^ ROTL64 (a2 ^^^ a7 ^^^ a12 ^^^ a17 ^^^ a22) 1),
       a22 ^^^ ((a1 ^^^ a6 ^^^ a11 ^^^ a16 ^^^ a21) ^^^ ROTL64 (a3 ^^^ a8 ^^^ a13 ^^^ a18 ^^^ a23) 1),
       a23 ^^^ ((a2 ^^^ a7 ^^^ a12 ^^^ a17 ^^^ a22) ^^^ ROTL64 (a4 ^^^ a9 ^^^ a14 ^^^ a19 ^^^ a24) 1),
       a24 ^^^ ((a3 ^^^ a8 ^^^ a13 ^^^ a18 ^^^ a23) ^^^ ROTL64 (a0 ^^^ a5 ^^^ a10 ^^^ a15 ^^^ a20) 1)] := by
  simp only [theta, List.range, List.range.loop, List.map, List.foldl, List.getD_cons_succ, List.getD_cons_zero, List.set_cons_succ, List.set_cons_zero, Nat.reduceMul, Nat.reduceAdd, Nat.reduceMod]

theorem rhoPi_lanes (a0 a1 a2 a3 a4 a5 a6 a7 a8 a9 a10 a11 a12 a13 a14 a15 a16 a17 a18 a19 a20 a21 a22 a23 a24 : Nat) :
    rhoPi [a0, a1, a2, a3, a4, a5, a6, a7, a8, a9, a10, a11, a12, a13, a14, a15, a16, a17, a18, a19, a20, a21, a22, a23, a24] =
      [a0,
       ROTL64 a6 44,
       ROTL64 a12 43,
       ROTL64 a18 21,
       ROTL64 a24 14,
       ROTL64 a3 28,
       ROTL64 a9 20,
       ROTL64 a10 3,
       ROTL64 a16 45,
       ROTL64 a22 61,
       ROTL64 a1 1,
       ROTL64 a7 6,
       ROTL64 a13 25,
       ROTL64 a19 8,
       ROTL64 a20 18,
       ROTL64 a4 27,
       ROTL64 a5 36,
       ROTL64 a11 10,
       ROTL64 a17 15,
       ROTL64 a23 56,
       ROTL64 a2 62,
       ROTL64 a8 55,
       ROTL64 a14 39,
       ROTL64 a15 41,
       ROTL64 a21 2] := by
  simp only [rhoPi, keccakf_piln, keccakf_rotc, List.range, List.range.loop, List.map, List.foldl, List.getD_cons_succ,
    List.getD_cons_zero, List.set_cons_succ, List.set_cons_zero, Nat.reduceMul, Nat.reduceAdd,
    Nat.reduceMod, Nat.reducePow, Nat.reduceSub]

theorem chi_lanes (a0 a1 a2 a3 a4 a5 a6 a7 a8 a9 a10 a11 a12 a13 a14 a15 a16 a17 a18 a19 a20 a21 a22 a23 a24 : Nat) :
    chi [a0, a1, a2, a3, a4, a5, a6, a7, a8, a9, a10, a11, a12, a13, a14, a15, a16, a17, a18, a19, a20, a21, a22, a23, a24] =
      [a0 ^^^ ((a1 ^^^ (2 ^ 64 - 1)) &&& a2),
       a1 ^^^ ((a2 ^^^ (2 ^ 64 - 1)) &&& a3),
       a2 ^^^ ((a3 ^^^ (2 ^ 64 - 1)) &&& a4),
       a3 ^^^ ((a4 ^^^ (2 ^ 64 - 1)) &&& a0),
       a4 ^^^ ((a0 ^^^ (2 ^ 64 - 1)) &&& a1),
       a5 ^^^ ((a6 ^^^ (2 ^ 64 - 1)) &&& a7),
       a6 ^^^ ((a7 ^^^ (2 ^ 64 - 1)) &&& a8),
       a7 ^^^ ((a8 ^^^ (2 ^ 64 - 1)) &&& a9),
       a8 ^^^ ((a9 ^^^ (2 ^ 64 - 1)) &&& a5),
       a9 ^^^ ((a5 ^^^ (2 ^ 64 - 1)) &&& a6),
       a10 ^^^ ((a11 ^^^ (2 ^ 64 - 1)) &&& a12),
       a11 ^^^ ((a12 ^^^ (2 ^ 64 - 1)) &&& a13),
       a12 ^^^ ((a13 ^^^ (2 ^ 64 - 1)) &&& a14),
       a13 ^^^ ((a14 ^^^ (2 ^ 64 - 1)) &&& a10),
       a14 ^^^ ((a10 ^^^ (2 ^ 64 - 1)) &&& a11),
       a15 ^^^ ((a16 ^^^ (2 ^ 64 - 1)) &&& a17),
       a16 ^^^ ((a17 ^^^ (2 ^ 64 - 1)) &&& a18),
       a17 ^^^ ((a18 ^^^ (2 ^ 64 - 1)) &&& a19),
       a18 ^^^ ((a19 ^^^ (2 ^ 64 - 1)) &&& a15),
       a19 ^^^ ((a15 ^^^ (2 ^ 64 - 1)) &&& a16),
       a20 ^^^ ((a21 ^^^ (2 ^ 64 - 1)) &&& a22),
       a21 ^^^ ((a22 ^^^ (2 ^ 64 - 1)) &&& a23),
       a22 ^^^ ((a23 ^^^ (2 ^ 64 - 1)) &&& a24),
       a23 ^^^ ((a24 ^^^ (2 ^ 64 - 1)) &&& a20),
       a24 ^^^ ((a20 ^^^ (2 ^ 64 - 1)) &&& a21)] := by
  simp only [chi, List.range, List.range.loop, List.map, List.foldl, List.getD_cons_succ,
    List.getD_cons_zero, List.set_cons_succ, List.set_cons_zero, Nat.reduceMul, Nat.reduceAdd,
    Nat.reduceMod, Nat.reducePow, Nat.reduceSub]

theorem iota_lanes (round a0 a1 a2 a3 a4 a5 a6 a7 a8 a9 a10 a11 a12 a13 a14 a15 a16 a17 a18 a19 a20 a21 a22 a23 a24 : Nat) :
    iota round [a0, a1, a2, a3, a4, a5, a6, a7, a8, a9, a10, a11, a12, a13, a14, a15, a16, a17, a18, a19, a20, a21, a22, a23, a24] =
      (a0 ^^^ keccakf_rndc.getD round 0) :: [a1, a2, a3, a4, a5, a6, a7, a8, a9, a10, a11, a12, a13, a14, a15, a16, a17, a18, a19, a20, a21, a22, a23, a24] := by
  simp only [iota, List.getD_cons_zero, List.set_cons_zero]

/-! ## The steps, lane by lane -/

theorem theta_getD (s : List Nat) (hs : s.length = 25) (x y : Nat) (hx : x < 5) (hy : y < 5) :
    (theta s).getD (5 * y + x) 0
      = s.getD (5 * y + x) 0 ^^^ (columnParity s ((x + 4) % 5)
          ^^^ ROTL64 (columnParity s ((x + 1) % 5)) 1) := by
  revert x y
  refine state_cases (fun s => ∀ x y, x < 5 → y < 5 → (theta s).getD (5 * y + x) 0
      = s.getD (5 * y + x) 0 ^^^ (columnParity s ((x + 4) % 5)
          ^^^ ROTL64 (columnParity s ((x + 1) % 5)) 1)) ?_ s hs
  intro a0 a1 a2 a3 a4 a5 a6 a7 a8 a9 a10 a11 a12 a13 a14 a15 a16 a17 a18 a19 a20 a21 a22 a23 a24
    x y hx hy
  rw [theta_lanes]
  interval_cases x <;> interval_cases y <;>
    simp only [columnParity, List.getD_cons_succ, List.getD_cons_zero, Nat.reduceMul,
      Nat.reduceAdd, Nat.reduceMod]

theorem chi_getD (s : List Nat) (hs : s.length = 25) (x y : Nat) (hx : x < 5) (hy : y < 5) :
    (chi s).getD (5 * y + x) 0
      = s.getD (5 * y + x) 0 ^^^
          ((s.getD (5 * y + (x + 1) % 5) 0 ^^^ (2 ^ 64 - 1))
            &&& s.getD (5 * y + (x + 2) % 5) 0) := by
  revert x y
  refine state_cases (fun s => ∀ x y, x < 5 → y < 5 → (chi s).getD (5 * y + x) 0
      = s.getD (5 * y + x) 0 ^^^
          ((s.getD (5 * y + (x + 1) % 5) 0 ^^^ (2 ^ 64 - 1))
            &&& s.getD (5 * y + (x + 2) % 5) 0)) ?_ s hs
  intro a0 a1 a2 a3 a4 a5 a6 a7 a8 a9 a10 a11 a12 a13 a14 a15 a16 a17 a18 a19 a20 a21 a22 a23 a24
    x y hx hy
  rw [chi_lanes]
  interval_cases x <;> interval_cases y <;>
    simp only [List.getD_cons_succ, List.getD_cons_zero, Nat.reduceMul, Nat.reduceAdd,
      Nat.reduceMod]

theorem rhoPi_getD (s : List Nat) (hs : s.length = 25) :
    (rhoPi s).getD 0 0 = s.getD 0 0 ∧
    ∀ i, i < 24 → (rhoPi s).getD (keccakf_piln.getD i 0) 0
      = ROTL64 (s.getD (if i = 0 then 1 else keccakf_piln.getD (i - 1) 0) 0)
          (keccakf_rotc.getD i 0) := by
  refine state_cases (fun s => (rhoPi s).getD 0 0 = s.getD 0 0 ∧
    ∀ i, i < 24 → (rhoPi s).getD (keccakf_piln.getD i 0) 0
      = ROTL64 (s.getD (if i = 0 then 1 else keccakf_piln.getD (i - 1) 0) 0)
          (keccakf_rotc.getD i 0)) ?_ s hs
  intro a0 a1 a2 a3 a4 a5 a6 a7 a8 a9 a10 a11 a12 a13 a14 a15 a16 a17 a18 a19 a20 a21 a22 a23
    a24
  rw [rhoPi_lanes]
  refine ⟨rfl, ?_⟩
  intro i hi
  interval_cases i <;>
    simp only [keccakf_piln, keccakf_rotc, List.getD_cons_succ, List.getD_cons_zero,
      Nat.reduceSub, if_true, if_false, OfNat.ofNat_ne_zero, Nat.succ_ne_zero, ↓reduceIte]

theorem iota_getD (round : Nat) (s : List Nat) (hs : s.length = 25) :
    (iota round s).getD 0 0 = s.getD 0 0 ^^^ keccakf_rndc.getD round 0 ∧
    ∀ k, 1 ≤ k → (iota round s).getD k 0 = s.getD k 0 := by
  refine state_cases (fun s =>
    (iota round s).getD 0 0 = s.getD 0 0 ^^^ keccakf_rndc.getD round 0 ∧
    ∀ k, 1 ≤ k → (iota round s).getD k 0 = s.getD k 0) ?_ s hs
  intro a0 a1 a2 a3 a4 a5 a6 a7 a8 a9 a10 a11 a12 a13 a14 a15 a16 a17 a18 a19 a20 a21 a22 a23
    a24
  rw [iota_lanes]
  refine ⟨rfl, ?_⟩
  intro k hk
  obtain ⟨m, rfl⟩ : ∃ m, k = m + 1 := ⟨k - 1, by omega⟩
  simp only [List.getD_cons_succ]

theorem lane_index (k : Nat) (hk : k < 25) : ∃ x y, x < 5 ∧ y < 5 ∧ k = 5 * y + x :=
  ⟨k % 5, k / 5, by omega, by omega, by omega⟩

theorem states_eq (s t : List Nat) (hs : s.length = 25) (ht : t.length = 25)
    (h : ∀ k, k < 25 → s.getD k 0 = t.getD k 0) : s = t := by
  apply List.ext_getElem (by rw [hs, ht])
  intro k h1 h2
  have := h k (by omega)
  simp only [List.getD_eq_getElem?_getD, List.getElem?_eq_getElem h1,
    List.getElem?_eq_getElem h2, Option.getD_some] at this
  exact this

/-! ## The steps keep the lanes within 64 bits -/

theorem columnParity_lt (s : List Nat) (hs : IsState s) (x : Nat) (hx : x < 5) :
    columnParity s x < 2 ^ 64 := by
  unfold columnParity
  exact Nat.xor_lt_two_pow (Nat.xor_lt_two_pow (Nat.xor_lt_two_pow (Nat.xor_lt_two_pow
    (hs.2 _ (by omega)) (hs.2 _ (by omega))) (hs.2 _ (by omega))) (hs.2 _ (by omega)))
    (hs.2 _ (by omega))

theorem theta_isState (s : List Nat) (hs : IsState s) : IsState (theta s) := by
  refine ⟨by rw [length_theta]; exact hs.1, ?_⟩
  intro k hk
  obtain ⟨x, y, hx, hy, rfl⟩ := lane_index k hk
  rw [theta_getD s hs.1 x y hx hy]
  exact Nat.xor_lt_two_pow (hs.2 _ hk) (Nat.xor_lt_two_pow
    (columnParity_lt s hs _ (Nat.mod_lt _ (by decide)))
    (ROTL64_lt _ _ (columnParity_lt s hs _ (Nat.mod_lt _ (by decide)))))

theorem chi_isState (s : List Nat) (hs : IsState s) : IsState (chi s) := by
  refine ⟨by rw [length_chi]; exact hs.1, ?_⟩
  intro k hk
  obtain ⟨x, y, hx, hy, rfl⟩ := lane_index k hk
  rw [chi_getD s hs.1 x y hx hy]
  exact Nat.xor_lt_two_pow (hs.2 _ hk) (Nat.and_lt_two_pow _ (hs.2 _ (by omega)))

theorem piln_covers : ∀ k, 1 ≤ k → k < 25 → ∃ i, i < 24 ∧ keccakf_piln.getD i 0 = k := by
  decide

theorem piln_source_covers : ∀ k, 1 ≤ k → k < 25 →
    ∃ i, i < 24 ∧ (if i = 0 then 1 else keccakf_piln.getD (i - 1) 0) = k := by
  decide

theorem piln_source_lt : ∀ i, i < 24 →
    (if i = 0 then 1 else keccakf_piln.getD (i - 1) 0) < 25 := by
  decide

theorem rotc_range : ∀ i, i < 24 → 0 < keccakf_rotc.getD i 0 ∧ keccakf_rotc.getD i 0 < 64 := by
  decide

theorem rndc_lt : ∀ round, keccakf_rndc.getD round 0 < 2 ^ 64 := by
  intro round
  by_cases h : round < 24
  · revert round
    decide
  · rw [List.getD_eq_default _ _ (by simp [keccakf_rndc]; omega)]
    decide

theorem rhoPi_isState (s : List Nat) (hs : IsState s) : IsState (rhoPi s) := by
  refine ⟨by rw [length_rhoPi]; exact hs.1, ?_⟩
  intro k hk
  by_cases h0 : k = 0
  · subst h0
    rw [(rhoPi_getD s hs.1).1]
    exact hs.2 _ hk
  · obtain ⟨i, hi, rfl⟩ := piln_covers k (by omega) hk
    rw [(rhoPi_getD s hs.1).2 i hi]
    exact ROTL64_lt _ _ (hs.2 _ (piln_source_lt i hi))

theorem iota_isState (round : Nat) (s : List Nat) (hs : IsState s) :
    IsState (iota round s) := by
  refine ⟨by simp [iota, hs.1], ?_⟩
  intro k hk
  by_cases h0 : k = 0
  · subst h0
    rw [(iota_getD round s hs.1).1]
    exact Nat.xor_lt_two_pow (hs.2 _ hk) (rndc_lt round)
  · rw [(iota_getD round s hs.1).2 k (by omega)]
    exact hs.2 _ hk

theorem keccakRound_isState (s : List Nat) (round : Nat) (hs : IsState s) :
    IsState (keccakRound s round) :=
  iota_isState _ _ (chi_isState _ (rhoPi_isState _ (theta_isState _ hs)))

theorem keccakf_isState (rounds : Nat) (s : List Nat) (hs : IsState s) :
    IsState (keccakf s rounds) := by
  unfold keccakf
  generalize List.range rounds = l
  induction l generalizing s with
  | nil => exact hs
  | cons r l ih =>
    rw [List.foldl_cons]
    exact ih (keccakRound s r) (keccakRound_isState s r hs)

theorem thetaWith_eq (rot : Nat → Nat → Nat)
    (h : ∀ x r, 0 < r → r < 64 → rot x r = ROTL64 x r) (s : List Nat) :
    thetaWith rot s = theta s := by
  have h1 : ∀ x, rot x 1 = ROTL64 x 1 := fun x => h x 1 (by decide) (by decide)
  simp only [thetaWith, theta, h1]

theorem rhoPiWith_eq (rot : Nat → Nat → Nat)
    (h : ∀ x r, 0 < r → r < 64 → rot x r = ROTL64 x r) (s : List Nat) :
    rhoPiWith rot s = rhoPi s := by
  unfold rhoPiWith rhoPi
  refine congrArg Prod.fst (List.foldl_ext _ _ _ ?_)
  intro p i hi
  have hi24 : i < 24 := List.mem_range.mp hi
  simp only [h _ _ (rotc_range i hi24).1 (rotc_range i hi24).2]

/-! ## Theta has no kernel -/

theorem xor_left_comm (x y z : Nat) : x ^^^ (y ^^^ z) = y ^^^ (x ^^^ z) := by
  rw [← Nat.xor_assoc, Nat.xor_comm x y, Nat.xor_assoc]

theorem ROTL64_xor (x y r : Nat) (hx : x < 2 ^ 64) (hy : y < 2 ^ 64) (h0 : 0 < r)
    (hr : r < 64) : ROTL64 (x ^^^ y) r = ROTL64 x r ^^^ ROTL64 y r := by
  apply Nat.eq_of_testBit_eq
  intro j
  have hxy : x ^^^ y < 2 ^ 64 := Nat.xor_lt_two_pow hx hy
  by_cases hj : j < 64
  · rw [Nat.testBit_xor, testBit_ROTL64 _ r j hxy h0 hr hj, testBit_ROTL64 _ r j hx h0 hr hj,
      testBit_ROTL64 _ r j hy h0 hr hj, Nat.testBit_xor]
  · rw [Nat.testBit_xor, testBit_high_ROTL64 _ r j hxy (by omega),
      testBit_high_ROTL64 _ r j hx (by omega), testBit_high_ROTL64 _ r j hy (by omega)]
    rfl

theorem ROTL64_injective (x y r : Nat) (hx : x < 2 ^ 64) (hy : y < 2 ^ 64) (h0 : 0 < r)
    (hr : r < 64) (h : ROTL64 x r = ROTL64 y r) : x = y := by
  apply Nat.eq_of_testBit_eq
  intro j
  by_cases hj : j < 64
  · have e : ((j + r) % 64 + 64 - r) % 64 = j := by omega
    have hx1 := testBit_ROTL64 x r ((j + r) % 64) hx h0 hr (Nat.mod_lt _ (by decide))
    have hy1 := testBit_ROTL64 y r ((j + r) % 64) hy h0 hr (Nat.mod_lt _ (by decide))
    rw [e] at hx1 hy1
    rw [← hx1, ← hy1, h]
  · rw [testBit_high x j hx (by omega), testBit_high y j hy (by omega)]

theorem bits_double (G : Fin 5 → Fin 64 → Bool) (e5 : Fin 5) (e64 : Fin 64)
    (h : ∀ x i, G x i = xor (G (x - e5) i) (G (x + e5) (i - e64))) :
    ∀ x i, G x i = xor (G (x - (e5 + e5)) i) (G (x + (e5 + e5)) (i - (e64 + e64))) := by
  intro x i
  have h1 := h x i
  have h2 := h (x - e5) i
  have h3 := h (x + e5) (i - e64)
  rw [sub_add_cancel] at h2
  rw [add_sub_cancel_right] at h3
  rw [sub_sub] at h2
  rw [add_assoc, sub_sub] at h3
  rw [h1, h2, h3]
  cases G (x - (e5 + e5)) i <;> cases G x (i - e64) <;>
    cases G (x + (e5 + e5)) (i - (e64 + e64)) <;> rfl

theorem bits_five (h : Fin 5 → Bool) (hh : ∀ x, h x = xor (h (x - 4)) (h (x + 4))) :
    ∀ x, h x = false := by
  have e0 := hh 0
  have e1 := hh 1
  have e2 := hh 2
  have e3 := hh 3
  have e4 := hh 4
  have a0 : (0 : Fin 5) - 4 = 1 := by decide
  have a1 : (1 : Fin 5) - 4 = 2 := by decide
  have a2 : (2 : Fin 5) - 4 = 3 := by decide
  have a3 : (3 : Fin 5) - 4 = 4 := by decide
  have a4 : (4 : Fin 5) - 4 = 0 := by decide
  have b0 : (0 : Fin 5) + 4 = 4 := by decide
  have b1 : (1 : Fin 5) + 4 = 0 := by decide
  have b2 : (2 : Fin 5) + 4 = 1 := by decide
  have b3 : (3 : Fin 5) + 4 = 2 := by decide
  have b4 : (4 : Fin 5) + 4 = 3 := by decide
  rw [a0, b0] at e0
  rw [a1, b1] at e1
  rw [a2, b2] at e2
  rw [a3, b3] at e3
  rw [a4, b4] at e4
  intro x
  fin_cases x <;> simp only [Fin.zero_eta, Fin.mk_one, Fin.reduceFinMk] <;>
    revert e0 e1 e2 e3 e4 <;>
    cases h 0 <;> cases h 1 <;> cases h 2 <;> cases h 3 <;> cases h 4 <;> simp

theorem theta_kernel (v : Fin 5 → Nat) (hlt : ∀ x, v x < 2 ^ 64)
    (hv : ∀ x, v x = v (x - 1) ^^^ ROTL64 (v (x + 1)) 1) : ∀ x, v x = 0 := by
  have hval : ∀ i : Fin 64, (i.val + 64 - 1) % 64 = (i - 1).val := by decide
  have hG : ∀ (x : Fin 5) (i : Fin 64), (v x).testBit i.val
      = xor ((v (x - 1)).testBit i.val) ((v (x + 1)).testBit (i - 1).val) := by
    intro x i
    have := congrArg (fun n => n.testBit i.val) (hv x)
    simp only [Nat.testBit_xor] at this
    rw [testBit_ROTL64 _ 1 i.val (hlt _) (by decide) (by decide) i.isLt, hval] at this
    exact this
  have h1 := bits_double (fun x i => (v x).testBit i.val) 1 1 hG
  simp only [show (1 : Fin 5) + 1 = 2 from by decide,
    show (1 : Fin 64) + 1 = 2 from by decide] at h1
  have h2 := bits_double _ _ _ h1
  simp only [show (2 : Fin 5) + 2 = 4 from by decide,
    show (2 : Fin 64) + 2 = 4 from by decide] at h2
  have h3 := bits_double _ _ _ h2
  simp only [show (4 : Fin 5) + 4 = 3 from by decide,
    show (4 : Fin 64) + 4 = 8 from by decide] at h3
  have h4 := bits_double _ _ _ h3
  simp only [show (3 : Fin 5) + 3 = 1 from by decide,
    show (8 : Fin 64) + 8 = 16 from by decide] at h4
  have h5 := bits_double _ _ _ h4
  simp only [show (1 : Fin 5) + 1 = 2 from by decide,
    show (16 : Fin 64) + 16 = 32 from by decide] at h5
  have h6 := bits_double _ _ _ h5
  simp only [show (2 : Fin 5) + 2 = 4 from by decide,
    show (32 : Fin 64) + 32 = 0 from by decide, sub_zero] at h6
  intro x
  apply Nat.eq_of_testBit_eq
  intro j
  rw [Nat.zero_testBit]
  by_cases hj : j < 64
  · exact bits_five (fun x => (v x).testBit j) (fun x => h6 x ⟨j, hj⟩) x
  · exact testBit_high _ j (hlt x) (by omega)

/-! ## The steps are injective -/

theorem iota_injective (round : Nat) (s t : List Nat) (hs : IsState s) (ht : IsState t)
    (h : iota round s = iota round t) : s = t := by
  apply states_eq s t hs.1 ht.1
  intro k hk
  have hk0 := congrArg (fun l => l.getD k 0) h
  simp only [] at hk0
  by_cases h0 : k = 0
  · subst h0
    rw [(iota_getD round s hs.1).1, (iota_getD round t ht.1).1] at hk0
    exact Nat.xor_left_inj.mp hk0
  · rw [(iota_getD round s hs.1).2 k (by omega), (iota_getD round t ht.1).2 k (by omega)] at hk0
    exact hk0

theorem rhoPi_injective (s t : List Nat) (hs : IsState s) (ht : IsState t)
    (h : rhoPi s = rhoPi t) : s = t := by
  apply states_eq s t hs.1 ht.1
  intro k hk
  by_cases h0 : k = 0
  · subst h0
    have hk0 := congrArg (fun l => l.getD 0 0) h
    simp only [] at hk0
    rw [(rhoPi_getD s hs.1).1, (rhoPi_getD t ht.1).1] at hk0
    exact hk0
  · obtain ⟨i, hi, hsrc⟩ := piln_source_covers k (by omega) hk
    have hk0 := congrArg (fun l => l.getD (keccakf_piln.getD i 0) 0) h
    simp only [] at hk0
    rw [(rhoPi_getD s hs.1).2 i hi, (rhoPi_getD t ht.1).2 i hi, hsrc] at hk0
    exact ROTL64_injective _ _ _ (hs.2 k hk) (ht.2 k hk) (rotc_range i hi).1
      (rotc_range i hi).2 hk0

theorem chi_bits_injective : ∀ a0 a1 a2 a3 a4 b0 b1 b2 b3 b4 : Bool,
    xor a0 (!a1 && a2) = xor b0 (!b1 && b2) → xor a1 (!a2 && a3) = xor b1 (!b2 && b3) →
    xor a2 (!a3 && a4) = xor b2 (!b3 && b4) → xor a3 (!a4 && a0) = xor b3 (!b4 && b0) →
    xor a4 (!a0 && a1) = xor b4 (!b0 && b1) →
    a0 = b0 ∧ a1 = b1 ∧ a2 = b2 ∧ a3 = b3 ∧ a4 = b4 := by
  decide

theorem chi_term_testBit (a b c j : Nat) (hj : j < 64) :
    (a ^^^ ((b ^^^ (2 ^ 64 - 1)) &&& c)).testBit j
      = xor (a.testBit j) (!b.testBit j && c.testBit j) := by
  rw [Nat.testBit_xor, Nat.testBit_and, Nat.testBit_xor, Nat.testBit_two_pow_sub_one]
  simp [hj]

theorem chi_row_injective (a0 a1 a2 a3 a4 b0 b1 b2 b3 b4 : Nat)
    (ha0 : a0 < 2 ^ 64) (ha1 : a1 < 2 ^ 64) (ha2 : a2 < 2 ^ 64) (ha3 : a3 < 2 ^ 64)
    (ha4 : a4 < 2 ^ 64) (hb0 : b0 < 2 ^ 64) (hb1 : b1 < 2 ^ 64) (hb2 : b2 < 2 ^ 64)
    (hb3 : b3 < 2 ^ 64) (hb4 : b4 < 2 ^ 64)
    (e0 : a0 ^^^ ((a1 ^^^ (2 ^ 64 - 1)) &&& a2) = b0 ^^^ ((b1 ^^^ (2 ^ 64 - 1)) &&& b2))
    (e1 : a1 ^^^ ((a2 ^^^ (2 ^ 64 - 1)) &&& a3) = b1 ^^^ ((b2 ^^^ (2 ^ 64 - 1)) &&& b3))
    (e2 : a2 ^^^ ((a3 ^^^ (2 ^ 64 - 1)) &&& a4) = b2 ^^^ ((b3 ^^^ (2 ^ 64 - 1)) &&& b4))
    (e3 : a3 ^^^ ((a4 ^^^ (2 ^ 64 - 1)) &&& a0) = b3 ^^^ ((b4 ^^^ (2 ^ 64 - 1)) &&& b0))
    (e4 : a4 ^^^ ((a0 ^^^ (2 ^ 64 - 1)) &&& a1) = b4 ^^^ ((b0 ^^^ (2 ^ 64 - 1)) &&& b1)) :
    a0 = b0 ∧ a1 = b1 ∧ a2 = b2 ∧ a3 = b3 ∧ a4 = b4 := by
  have bits : ∀ j, a0.testBit j = b0.testBit j ∧ a1.testBit j = b1.testBit j ∧
      a2.testBit j = b2.testBit j ∧ a3.testBit j = b3.testBit j ∧
      a4.testBit j = b4.testBit j := by
    intro j
    by_cases hj : j < 64
    · have f0 := congrArg (fun n => n.testBit j) e0
      have f1 := congrArg (fun n => n.testBit j) e1
      have f2 := congrArg (fun n => n.testBit j) e2
      have f3 := congrArg (fun n => n.testBit j) e3
      have f4 := congrArg (fun n => n.testBit j) e4
      simp only [chi_term_testBit _ _ _ j hj] at f0 f1 f2 f3 f4
      exact chi_bits_injective _ _ _ _ _ _ _ _ _ _ f0 f1 f2 f3 f4
    · simp only [testBit_high _ j ha0 (by omega), testBit_high _ j ha1 (by omega),
        testBit_high _ j ha2 (by omega), testBit_high _ j ha3 (by omega),
        testBit_high _ j ha4 (by omega), testBit_high _ j hb0 (by omega),
        testBit_high _ j hb1 (by omega), testBit_high _ j hb2 (by omega),
        testBit_high _ j hb3 (by omega), testBit_high _ j hb4 (by omega), and_self]
  exact ⟨Nat.eq_of_testBit_eq fun j => (bits j).1, Nat.eq_of_testBit_eq fun j => (bits j).2.1,
    Nat.eq_of_testBit_eq fun j => (bits j).2.2.1, Nat.eq_of_testBit_eq fun j => (bits j).2.2.2.1,
    Nat.eq_of_testBit_eq fun j => (bits j).2.2.2.2⟩

theorem chi_injective (s t : List Nat) (hs : IsState s) (ht : IsState t)
    (h : chi s = chi t) : s = t := by
  have row : ∀ y, y < 5 →
      s.getD (5 * y) 0 = t.getD (5 * y) 0 ∧ s.getD (5 * y + 1) 0 = t.getD (5 * y + 1) 0 ∧
      s.getD (5 * y + 2) 0 = t.getD (5 * y + 2) 0 ∧
      s.getD (5 * y + 3) 0 = t.getD (5 * y + 3) 0 ∧
      s.getD (5 * y + 4) 0 = t.getD (5 * y + 4) 0 := by
    intro y hy
    have eq : ∀ x, x < 5 → s.getD (5 * y + x) 0 ^^^
          ((s.getD (5 * y + (x + 1) % 5) 0 ^^^ (2 ^ 64 - 1))
            &&& s.getD (5 * y + (x + 2) % 5) 0)
        = t.getD (5 * y + x) 0 ^^^
          ((t.getD (5 * y + (x + 1) % 5) 0 ^^^ (2 ^ 64 - 1))
            &&& t.getD (5 * y + (x + 2) % 5) 0) := by
      intro x hx
      rw [← chi_getD s hs.1 x y hx hy, ← chi_getD t ht.1 x y hx hy, h]
    have e0 := eq 0 (by decide)
    have e1 := eq 1 (by decide)
    have e2 := eq 2 (by decide)
    have e3 := eq 3 (by decide)
    have e4 := eq 4 (by decide)
    simp only [Nat.reduceAdd, Nat.reduceMod, Nat.add_zero] at e0 e1 e2 e3 e4
    exact chi_row_injective _ _ _ _ _ _ _ _ _ _ (hs.2 _ (by omega)) (hs.2 _ (by omega))
      (hs.2 _ (by omega)) (hs.2 _ (by omega)) (hs.2 _ (by omega)) (ht.2 _ (by omega))
      (ht.2 _ (by omega)) (ht.2 _ (by omega)) (ht.2 _ (by omega)) (ht.2 _ (by omega))
      e0 e1 e2 e3 e4
  apply states_eq s t hs.1 ht.1
  intro k hk
  obtain ⟨x, y, hx, hy, rfl⟩ := lane_index k hk
  obtain ⟨r0, r1, r2, r3, r4⟩ := row y hy
  interval_cases x
  · exact r0
  · exact r1
  · exact r2
  · exact r3
  · exact r4

theorem xor_swap (p q r u : Nat) (h : p ^^^ q = r ^^^ u) : p ^^^ r = q ^^^ u := by
  apply Nat.eq_of_testBit_eq
  intro j
  have hj := congrArg (fun n => n.testBit j) h
  simp only [Nat.testBit_xor] at hj ⊢
  revert hj
  cases p.testBit j <;> cases q.testBit j <;> cases r.testBit j <;> cases u.testBit j <;> simp

theorem xor_pairs (p q r u : Nat) : (p ^^^ q) ^^^ (r ^^^ u) = (p ^^^ r) ^^^ (q ^^^ u) := by
  simp only [Nat.xor_assoc, xor_left_comm q]

theorem xor_columns (p0 p1 p2 p3 p4 q0 q1 q2 q3 q4 : Nat) :
    (p0 ^^^ p1 ^^^ p2 ^^^ p3 ^^^ p4) ^^^ (q0 ^^^ q1 ^^^ q2 ^^^ q3 ^^^ q4)
      = (p0 ^^^ q0) ^^^ (p1 ^^^ q1) ^^^ (p2 ^^^ q2) ^^^ (p3 ^^^ q3) ^^^ (p4 ^^^ q4) := by
  rw [xor_pairs (p0 ^^^ p1 ^^^ p2 ^^^ p3) p4, xor_pairs (p0 ^^^ p1 ^^^ p2) p3,
    xor_pairs (p0 ^^^ p1) p2, xor_pairs p0 p1]

theorem theta_injective (s t : List Nat) (hs : IsState s) (ht : IsState t)
    (h : theta s = theta t) : s = t := by
  have hE : ∀ x y, x < 5 → y < 5 → s.getD (5 * y + x) 0 ^^^ t.getD (5 * y + x) 0
      = (columnParity s ((x + 4) % 5) ^^^ ROTL64 (columnParity s ((x + 1) % 5)) 1)
        ^^^ (columnParity t ((x + 4) % 5) ^^^ ROTL64 (columnParity t ((x + 1) % 5)) 1) := by
    intro x y hx hy
    apply xor_swap
    rw [← theta_getD s hs.1 x y hx hy, ← theta_getD t ht.1 x y hx hy, h]
  have hstep : ∀ x, x < 5 → columnParity s x ^^^ columnParity t x
      = (columnParity s ((x + 4) % 5) ^^^ columnParity t ((x + 4) % 5))
        ^^^ ROTL64 (columnParity s ((x + 1) % 5) ^^^ columnParity t ((x + 1) % 5)) 1 := by
    intro x hx
    have e0 := hE x 0 hx (by decide)
    have e1 := hE x 1 hx (by decide)
    have e2 := hE x 2 hx (by decide)
    have e3 := hE x 3 hx (by decide)
    have e4 := hE x 4 hx (by decide)
    rw [show 5 * 0 + x = x from by omega] at e0
    rw [show 5 * 1 + x = x + 5 from by omega] at e1
    rw [show 5 * 2 + x = x + 10 from by omega] at e2
    rw [show 5 * 3 + x = x + 15 from by omega] at e3
    rw [show 5 * 4 + x = x + 20 from by omega] at e4
    rw [ROTL64_xor _ _ 1 (columnParity_lt s hs _ (Nat.mod_lt _ (by decide)))
      (columnParity_lt t ht _ (Nat.mod_lt _ (by decide))) (by decide) (by decide),
      xor_pairs (columnParity s ((x + 4) % 5)), ← e0]
    conv_lhs => unfold columnParity
    rw [xor_columns, e0, e1, e2, e3, e4]
    simp only [Nat.xor_self, Nat.zero_xor]
  have hval1 : ∀ x : Fin 5, (x - 1).val = (x.val + 4) % 5 := by decide
  have hval2 : ∀ x : Fin 5, (x + 1).val = (x.val + 1) % 5 := by decide
  have hker := theta_kernel (fun x => columnParity s x.val ^^^ columnParity t x.val)
    (fun x => Nat.xor_lt_two_pow (columnParity_lt s hs _ x.isLt) (columnParity_lt t ht _ x.isLt))
    (fun x => by
      simp only [hval1, hval2]
      exact hstep x.val x.isLt)
  apply states_eq s t hs.1 ht.1
  intro k hk
  obtain ⟨x, y, hx, hy, rfl⟩ := lane_index k hk
  apply Nat.xor_eq_zero.mp
  have e := hE x y hx hy
  have hzero := hker ⟨x, hx⟩
  simp only [] at hzero
  have e0 := hE x 0 hx (by decide)
  rw [show 5 * 0 + x = x from by omega] at e0
  rw [e, ← e0]
  have hx0 := hstep x hx
  rw [hzero] at hx0
  rw [ROTL64_xor _ _ 1 (columnParity_lt s hs _ (Nat.mod_lt _ (by decide)))
    (columnParity_lt t ht _ (Nat.mod_lt _ (by decide))) (by decide) (by decide),
    xor_pairs (columnParity s ((x + 4) % 5)), ← e0] at hx0
  exact hx0.symm

/-! ## The permutation is a bijection of the states -/

theorem keccakRound_injective (round : Nat) (s t : List Nat) (hs : IsState s) (ht : IsState t)
    (h : keccakRound s round = keccakRound t round) : s = t := by
  unfold keccakRound at h
  have h1 := iota_injective round _ _
    (chi_isState _ (rhoPi_isState _ (theta_isState _ hs)))
    (chi_isState _ (rhoPi_isState _ (theta_isState _ ht))) h
  have h2 := chi_injective _ _ (rhoPi_isState _ (theta_isState _ hs))
    (rhoPi_isState _ (theta_isState _ ht)) h1
  have h3 := rhoPi_injective _ _ (theta_isState _ hs) (theta_isState _ ht) h2
  exact theta_injective s t hs ht h3

theorem keccakf_injective (rounds : Nat) (s t : List Nat) (hs : IsState s) (ht : IsState t)
    (h : keccakf s rounds = keccakf t rounds) : s = t := by
  unfold keccakf at h
  revert h
  generalize List.range rounds = l
  induction l generalizing s t with
  | nil => intro h; exact h
  | cons r l ih =>
    intro h
    rw [List.foldl_cons, List.foldl_cons] at h
    exact keccakRound_injective r s t hs ht
      (ih _ _ (keccakRound_isState s r hs) (keccakRound_isState t r ht) h)

theorem finite_states : Finite {s : List Nat // IsState s} := by
  apply Finite.of_injective
    (fun (s : {s : List Nat // IsState s}) (i : Fin 25) =>
      (⟨s.val.getD i.val 0, s.property.2 i.val i.isLt⟩ : Fin (2 ^ 64)))
  intro s t hst
  apply Subtype.ext
  apply states_eq s.val t.val s.property.1 t.property.1
  intro k hk
  have := congrArg (fun f => (f ⟨k, hk⟩).val) hst
  exact this

theorem keccakf_surjective (rounds : Nat) (t : List Nat) (ht : IsState t) :
    ∃ s, IsState s ∧ keccakf s rounds = t := by
  have hfin := finite_states
  have hinj : Function.Injective
      (fun s : {s : List Nat // IsState s} =>
        (⟨keccakf s.val rounds, keccakf_isState rounds s.val s.property⟩ :
          {s : List Nat // IsState s})) := by
    intro s u hsu
    apply Subtype.ext
    exact keccakf_injective rounds s.val u.val s.property u.property
      (congrArg Subtype.val hsu)
  obtain ⟨s, hs⟩ := Finite.surjective_of_injective hinj ⟨t, ht⟩
  exact ⟨s.val, s.property, congrArg Subtype.val hs⟩

theorem xor_mask_eq_sub (x : Nat) (hx : x < 2 ^ 64) : x ^^^ (2 ^ 64 - 1) = 2 ^ 64 - 1 - x := by
  apply Nat.eq_of_testBit_eq
  intro i
  have e : 2 ^ 64 - 1 - x = 2 ^ 64 - (x + 1) := by omega
  rw [e, Nat.testBit_two_pow_sub_succ hx, Nat.testBit_xor, Nat.testBit_two_pow_sub_one]
  by_cases hi : i < 64
  · simp [hi]
  · rw [testBit_high x i hx (by omega)]
    simp [hi]

/-! ## The bytes of a word -/

theorem leWord_byte (bs : List Byte) :
    ∀ j : Nat, (leWord bs >>> (8 * j)) % 256 = (bs.getD j 0).val := by
  induction bs with
  | nil => intro j; simp [leWord]
  | cons b bs ih =>
    intro j
    cases j with
    | zero =>
      simp only [leWord, Nat.mul_zero, Nat.shiftRight_zero, List.getD_cons_zero]
      rw [Nat.add_mul_mod_self_left]
      exact Nat.mod_eq_of_lt b.isLt
    | succ j =>
      have hdiv : (b.val + 256 * leWord bs) / 256 = leWord bs := by
        have := b.isLt
        omega
      have hpow : 2 ^ (8 * (j + 1)) = 256 * 2 ^ (8 * j) := by
        rw [Nat.mul_add, Nat.pow_add]
        simp [Nat.mul_comm]
      simp only [leWord, List.getD_cons_succ]
      rw [Nat.shiftRight_eq_div_pow, hpow, ← Nat.div_div_eq_div_mul, hdiv,
        ← Nat.shiftRight_eq_div_pow]
      exact ih j

theorem xor_xor_cancel (a w : Nat) : (a ^^^ w) ^^^ a = w := by
  rw [Nat.xor_comm a w, Nat.xor_assoc, Nat.xor_self, Nat.xor_zero]

theorem word_byte (B : List Byte) (k : Nat) :
    (word B (k / 8) >>> (8 * (k % 8))) % 256 = (B.getD k 0).val := by
  unfold word
  rw [leWord_byte]
  congr 1
  simp only [List.getD_eq_getElem?_getD]
  rw [List.getElem?_take_of_lt (Nat.mod_lt _ (by decide)), List.getElem?_drop]
  congr 2
  omega

/-! ## Rates that are not a multiple of 8 -/

theorem rate_of_mdlen_div (mdlen : Nat) (h1 : 28 ≤ mdlen) (h2 : mdlen < 100) :
    (200 - 2 * (mdlen : Int) = ((200 - 2 * mdlen : Nat) : Int)) ∧
    (Int.tdiv ((200 - 2 * mdlen : Nat) : Int) 8 = (((200 - 2 * mdlen) / 8 : Nat) : Int)) ∧
    0 < 200 - 2 * mdlen ∧ 200 - 2 * mdlen ≤ 144 := by
  refine ⟨by omega, ?_, by omega, by omega⟩
  exact (Int.ofNat_tdiv _ 8).symm

theorem finish_eq_div (r w : Nat) (hr8 : w = r / 8) (hr : r ≤ 144) (a : Absorbed) (n : Nat)
    (ha : a.inlen = n) (hn : n < r) (hl : n ≤ a.inp.length) (hst : w ≤ a.st.length) :
    finish (r : Int) (w : Int) a
      = .ok (keccakf (xorBlock w a.st (a.inp.take n ++ padding (r - n))) 24, a.passes + 1) := by
  have hlen : (a.inp.take n ++ padding (r - n)).length = r := by
    rw [List.length_append, length_padding _ (by omega), List.length_take]; omega
  unfold finish
  rw [ha, lastBlock_eq a.inp n r hn hr hl]
  simp only [bind, Except.bind]
  rw [xorLanes_eq _ (a.inp.take n ++ padding (r - n)) a.st w
    (fun i hi => loadTemp64_eq _ _ i (by omega)) hst]
  simp only [KECCAK_ROUNDS, pure, Except.pure]

theorem absorb_finish_div (r w : Nat) (hr8 : w = r / 8) (hr0 : 0 < r) (hr : r ≤ 144) :
    ∀ (fuel : Nat) (a : Absorbed) (n : Nat), a.inlen = n → n ≤ a.inp.length →
      a.st.length = 25 → n < fuel * r →
      (absorb (r : Int) (w : Int) fuel a >>= finish (r : Int) (w : Int))
        = .ok (absorbBlocks r a.st (a.inp.take n ++ padding (r - n % r)),
            a.passes + n / r + 1) := by
  intro fuel
  induction fuel with
  | zero => intro a n _ _ _ h; omega
  | succ fuel ih =>
    intro a n ha hl hst hfuel
    have hw : w = r / 8 := by omega
    unfold absorb
    by_cases hge : r ≤ n
    · rw [if_pos (by rw [ha]; omega)]
      simp only [bind, Except.bind]
      rw [xorLanes_eq _ a.inp a.st w (fun i hi => load64_eq _ i (by omega)) (by omega)]
      simp only []
      have hsub : a.inlen - (r : Int) = ((n - r : Nat) : Int) := by rw [ha]; omega
      have hih := ih ⟨keccakf (xorBlock w a.st a.inp) KECCAK_ROUNDS, a.inp.drop r, a.inlen - r,
        a.passes + 1⟩ (n - r) hsub (by simp; omega)
        (by simp [length_keccakf, length_xorBlock, hst])
        (by rw [Nat.succ_mul] at hfuel; omega)
      simp only [bind, Except.bind, Int.toNat_ofNat] at hih ⊢
      rw [hih]
      have hmod : (n - r) % r = n % r := by
        rw [Nat.mod_eq_sub_mod hge]
      have hdiv : a.passes + 1 + (n - r) / r + 1 = a.passes + n / r + 1 := by
        rw [Nat.div_eq_sub_div hr0 hge]; omega
      have hsplit : a.inp.take n ++ padding (r - n % r)
          = a.inp.take r ++ ((a.inp.drop r).take (n - r) ++ padding (r - n % r)) := by
        rw [← List.append_assoc]
        congr 1
        have : n = r + (n - r) := by omega
        conv_lhs => rw [this]
        rw [List.take_add]
      have htake : (a.inp.take r).length = r := by simp; omega
      have key : absorbBlocks r a.st (a.inp.take n ++ padding (r - n % r))
          = absorbBlocks r (keccakf (xorBlock w a.st a.inp) KECCAK_ROUNDS)
              ((a.inp.drop r).take (n - r) ++ padding (r - n % r)) := by
        rw [hsplit]
        unfold absorbBlocks
        rw [blocks_cons r _ hr0 (by simp; omega), List.foldl_cons,
          List.take_append_of_le_length (by omega), List.take_take, Nat.min_self,
          List.drop_append_of_le_length (by omega),
          List.drop_of_length_le (by omega : (a.inp.take r).length ≤ r), List.nil_append,
          ← hw, xorBlock_take w r _ _ (by omega)]
        simp only [KECCAK_ROUNDS]
      rw [key, hmod, hdiv]
    · rw [if_neg (by rw [ha]; omega)]
      have hmod : n % r = n := Nat.mod_eq_of_lt (by omega)
      have hdiv : n / r = 0 := Nat.div_eq_of_lt (by omega)
      have hlen : (a.inp.take n ++ padding (r - n)).length = r := by
        rw [List.length_append, length_padding _ (by omega), List.length_take]; omega
      change finish (r : Int) (w : Int) a = _
      rw [finish_eq_div r w hr8 hr a n ha (by omega) hl (by omega), hmod, hdiv]
      unfold absorbBlocks
      rw [blocks_single r _ hr0 hlen, ← hw]
      simp only [KECCAK_ROUNDS, List.foldl_cons, List.foldl_nil, Nat.add_zero]

theorem hashState_eq_div (mdlen : Nat) (h1 : 28 ≤ mdlen) (h2 : mdlen < 100)
    (inp : List Byte) (n : Nat) (hl : n ≤ inp.length) :
    hashState inp (n : Int) (mdlen : Int)
      = .ok (finalState (inp.take n) mdlen, n / (200 - 2 * mdlen) + 1) := by
  obtain ⟨e1, e2, hr0, hr⟩ := rate_of_mdlen_div mdlen h1 h2
  unfold hashState
  simp only []
  rw [e1, e2, Int.toNat_ofNat]
  have := absorb_finish_div (200 - 2 * mdlen) ((200 - 2 * mdlen) / 8) rfl hr0 hr (n + 1)
    ⟨List.replicate 25 0, inp, (n : Int), 0⟩ n rfl hl (by simp)
    (Nat.lt_of_lt_of_le (Nat.lt_succ_self n) (Nat.le_mul_of_pos_right _ hr0))
  simp only [Nat.zero_add] at this
  rw [this]
  unfold finalState
  simp only []
  rw [List.length_take, Nat.min_eq_left hl]

theorem hash_eq_div (mdlen : Nat) (h1 : 28 ≤ mdlen) (h2 : mdlen < 100)
    (inp : List Byte) (n : Nat) (hl : n ≤ inp.length) :
    hash inp (n : Int) (mdlen : Int) = .ok (digest (inp.take n) mdlen) := by
  unfold hash
  rw [hashState_eq_div mdlen h1 h2 inp n hl]
  simp only [bind, Except.bind]
  rw [squeeze_eq _ mdlen (length_finalState _ _) (by omega)]
  rfl

theorem xorBlock_congr_take (w r : Nat) (st : List Nat) (B C : List Byte) (h : 8 * w ≤ r)
    (hBC : B.take r = C.take r) : xorBlock w st B = xorBlock w st C := by
  rw [← xorBlock_take w r st B h, ← xorBlock_take w r st C h, hBC]

theorem take_eq_of_getElem? (B C : List Byte) (r : Nat)
    (h : ∀ i, i < r → B[i]? = C[i]?) : B.take r = C.take r := by
  apply List.ext_getElem?
  intro i
  by_cases hi : i < r
  · rw [List.getElem?_take_of_lt hi, List.getElem?_take_of_lt hi, h i hi]
  · rw [List.getElem?_take_eq_none (by omega), List.getElem?_take_eq_none (by omega)]

theorem drop_eq_of_getElem? (B C : List Byte) (r : Nat)
    (h : ∀ i, r ≤ i → B[i]? = C[i]?) : B.drop r = C.drop r := by
  apply List.ext_getElem?
  intro i
  rw [List.getElem?_drop, List.getElem?_drop, h _ (by omega)]

/-! ## The claims on the loop, the steps and the tables -/

/-- C11: for a supported digest length, `rsiz = 200 - 2 mdlen`, and a buffer that holds
`inlen` bytes, the absorbing loop ends for every fuel above `inlen / rsiz`, after exactly
`inlen / rsiz` passes, and leaves `inlen mod rsiz < rsiz` bytes; `hash` calls `keccakf`
exactly `inlen / rsiz + 1` times; messages of `rsiz - 1`, `rsiz` and `rsiz + 1` bytes give
1, 2 and 2 calls, and after a message of exactly `rsiz` bytes the last block holds the
padding alone. -/
theorem absorb_pass_count (mdlen : Nat)
    (h : mdlen = 28 ∨ mdlen = 32 ∨ mdlen = 48 ∨ mdlen = 64)
    (inp : List Byte) (n : Nat) (hl : n ≤ inp.length) :
    (∀ fuel : Nat, n / (200 - 2 * mdlen) < fuel →
      ∃ a, absorb (200 - 2 * (mdlen : Int)) (Int.tdiv (200 - 2 * (mdlen : Int)) 8) fuel
          ⟨List.replicate 25 0, inp, n, 0⟩ = .ok a ∧
        a.passes = n / (200 - 2 * mdlen) ∧
        a.inlen = ((n % (200 - 2 * mdlen) : Nat) : Int) ∧
        a.inlen < 200 - 2 * (mdlen : Int) ∧
        a.inp = inp.drop (n - n % (200 - 2 * mdlen)) ∧
        (n = 200 - 2 * mdlen →
          lastBlock a.inp a.inlen (200 - 2 * (mdlen : Int))
            = .ok ((padding (200 - 2 * mdlen)).map some
                ++ List.replicate (144 - (200 - 2 * mdlen)) none))) ∧
    (∃ st, hashState inp n mdlen = .ok (st, n / (200 - 2 * mdlen) + 1)) ∧
    (n = 200 - 2 * mdlen - 1 → ∃ st, hashState inp n mdlen = .ok (st, 1)) ∧
    (n = 200 - 2 * mdlen → ∃ st, hashState inp n mdlen = .ok (st, 2)) ∧
    (n = 200 - 2 * mdlen + 1 → ∃ st, hashState inp n mdlen = .ok (st, 2)) := by
  obtain ⟨h1, h2, h4⟩ := supported_rate mdlen h
  obtain ⟨e1, e2, hr8, hr0, hr⟩ := rate_of_mdlen mdlen h1 h2 h4
  have hmodlt : n % (200 - 2 * mdlen) < 200 - 2 * mdlen := Nat.mod_lt _ hr0
  have hmodle : n % (200 - 2 * mdlen) ≤ n := Nat.mod_le _ _
  have hstate := hashState_eq mdlen h1 h2 h4 inp n hl
  refine ⟨?_, ⟨_, hstate⟩, ?_, ?_, ?_⟩
  · intro fuel hfuel
    have habs := absorb_eq (200 - 2 * mdlen) ((200 - 2 * mdlen) / 8) hr8 hr0 hr fuel
      ⟨List.replicate 25 0, inp, (n : Int), 0⟩ n rfl hl (by simp)
      ((Nat.div_lt_iff_lt_mul hr0).mp hfuel)
    simp only [] at habs
    rw [e1, e2]
    refine ⟨_, habs, by simp, rfl, ?_, rfl, ?_⟩
    · simp only []
      omega
    · intro hn
      simp only []
      have hm : n % (200 - 2 * mdlen) = 0 := by rw [hn]; exact Nat.mod_self _
      have := lastBlock_eq (inp.drop (n - n % (200 - 2 * mdlen))) (n % (200 - 2 * mdlen))
        (200 - 2 * mdlen) hmodlt hr (by rw [List.length_drop]; omega)
      rw [this, hm, List.take_zero, List.nil_append, Nat.sub_zero]
  · intro hn
    have : n / (200 - 2 * mdlen) = 0 := Nat.div_eq_of_lt (by omega)
    exact ⟨_, by rw [hstate, this]⟩
  · intro hn
    have : n / (200 - 2 * mdlen) = 1 := by rw [hn]; exact Nat.div_self hr0
    exact ⟨_, by rw [hstate, this]⟩
  · intro hn
    have : n / (200 - 2 * mdlen) = 1 := by
      rw [hn, Nat.add_div_left _ hr0, Nat.div_eq_of_lt (by omega)]
    exact ⟨_, by rw [hstate, this]⟩

/-- The theorem of C11 at digest length 32 and a message of 136 bytes, one full block. -/
theorem absorb_pass_count_witness :
    ((32 : Nat) = 28 ∨ (32 : Nat) = 32 ∨ (32 : Nat) = 48 ∨ (32 : Nat) = 64) ∧
    136 ≤ (List.replicate 136 (0xA3 : Byte)).length ∧
    (∃ st, hashState (List.replicate 136 0xA3) (136 : Nat) (32 : Nat) = .ok (st, 2)) :=
  ⟨by decide, by simp,
    (absorb_pass_count 32 (by decide) (List.replicate 136 0xA3) 136 (by simp)).2.2.2.1
      (by decide)⟩

/-- C12: for every state `s` of 25 lanes, after the single pass of Rho Pi with its rolling
temporary, lane 0 is unchanged, lane `keccakf_piln[0]` is `ROTL64(s[1], keccakf_rotc[0])` and
lane `keccakf_piln[i]` is `ROTL64(s[keccakf_piln[i-1]], keccakf_rotc[i])` for `i` from 1 to 23,
where `s` is the state before the pass; every lane from 1 to 24 of the result is written by
exactly one step `i`, and the steps read 24 distinct lanes. -/
theorem rhoPi_lane (s : List Nat) (hs : s.length = 25) :
    (rhoPi s).length = 25 ∧
    (rhoPi s).getD 0 0 = s.getD 0 0 ∧
    (rhoPi s).getD (keccakf_piln.getD 0 0) 0 = ROTL64 (s.getD 1 0) (keccakf_rotc.getD 0 0) ∧
    (∀ i, 1 ≤ i → i < 24 →
      (rhoPi s).getD (keccakf_piln.getD i 0) 0
        = ROTL64 (s.getD (keccakf_piln.getD (i - 1) 0) 0) (keccakf_rotc.getD i 0)) ∧
    (∀ j, 1 ≤ j → j < 25 →
      ∃ i, i < 24 ∧ keccakf_piln.getD i 0 = j ∧
        (∀ k, k < 24 → keccakf_piln.getD k 0 = j → k = i) ∧
        (rhoPi s).getD j 0
          = ROTL64 (s.getD (if i = 0 then 1 else keccakf_piln.getD (i - 1) 0) 0)
              (keccakf_rotc.getD i 0)) ∧
    (∀ i, i < 24 → ∀ k, k < 24 →
      (if i = 0 then 1 else keccakf_piln.getD (i - 1) 0)
        = (if k = 0 then 1 else keccakf_piln.getD (k - 1) 0) → i = k) ∧
    (∀ i, i < 24 → 1 ≤ (if i = 0 then 1 else keccakf_piln.getD (i - 1) 0) ∧
      (if i = 0 then 1 else keccakf_piln.getD (i - 1) 0) < 25) := by
  have hlanes := rhoPi_getD s hs
  have htable : ∀ j, 1 ≤ j → j < 25 →
      ∃ i, i < 24 ∧ keccakf_piln.getD i 0 = j ∧
        ∀ k, k < 24 → keccakf_piln.getD k 0 = j → k = i := by
    decide
  have h0 := hlanes.2 0 (by decide)
  rw [if_pos rfl] at h0
  refine ⟨by rw [length_rhoPi]; exact hs, hlanes.1, h0, ?_, ?_, by decide, by decide⟩
  · intro i h1 h24
    have := hlanes.2 i h24
    rw [if_neg (by omega)] at this
    exact this
  · intro j h1 h25
    obtain ⟨i, hi, hij, huniq⟩ := htable j h1 h25
    refine ⟨i, hi, hij, huniq, ?_⟩
    rw [← hij]
    exact hlanes.2 i hi

/-- The theorem of C12 at the state with lanes `0, 1, .., 24`. -/
theorem rhoPi_lane_witness :
    (List.range 25).length = 25 ∧
    (rhoPi (List.range 25)).getD 0 0 = (List.range 25).getD 0 0 ∧
    (rhoPi (List.range 25)).getD (keccakf_piln.getD 0 0) 0
      = ROTL64 ((List.range 25).getD 1 0) (keccakf_rotc.getD 0 0) :=
  have w := rhoPi_lane (List.range 25) (by decide)
  ⟨by decide, w.2.1, w.2.2.1⟩

/-- C13: for every state of 25 lanes, with the column parities
`C[x] = s[x] xor s[x+5] xor s[x+10] xor s[x+15] xor s[x+20]` of the state before the step,
the Theta step gives `s[5y+x] xor C[(x+4) mod 5] xor ROTL64(C[(x+1) mod 5], 1)` in lane
`5y+x`, for all `x` and `y` below 5: the same term is XORed into the 5 lanes of a column. -/
theorem theta_lane (s : List Nat) (hs : s.length = 25) (x y : Nat) (hx : x < 5) (hy : y < 5) :
    (theta s).getD (5 * y + x) 0
      = s.getD (5 * y + x) 0 ^^^ columnParity s ((x + 4) % 5)
          ^^^ ROTL64 (columnParity s ((x + 1) % 5)) 1 := by
  rw [theta_getD s hs x y hx hy, Nat.xor_assoc]

/-- The theorem of C13 at the state with lanes `0, 1, .., 24`, column 2 and row 1. -/
theorem theta_lane_witness :
    (List.range 25).length = 25 ∧ 2 < 5 ∧ 1 < 5 ∧
    (theta (List.range 25)).getD (5 * 1 + 2) 0
      = (List.range 25).getD (5 * 1 + 2) 0 ^^^ columnParity (List.range 25) ((2 + 4) % 5)
          ^^^ ROTL64 (columnParity (List.range 25) ((2 + 1) % 5)) 1 :=
  ⟨by decide, by decide, by decide,
    theta_lane (List.range 25) (by decide) 2 1 (by decide) (by decide)⟩

/-- C14: for every state of 25 lanes of 64 bits, the Chi step gives
`s[5y+x] xor ((not s[5y + (x+1) mod 5]) and s[5y + (x+2) mod 5])` in lane `5y+x`, for all `x`
and `y` below 5, where every lane on the right is the lane before the step and `not` is the
complement on 64 bits. -/
theorem chi_lane (s : List Nat) (hs : IsState s) (x y : Nat) (hx : x < 5) (hy : y < 5) :
    (chi s).getD (5 * y + x) 0
      = s.getD (5 * y + x) 0 ^^^
          ((2 ^ 64 - 1 - s.getD (5 * y + (x + 1) % 5) 0) &&& s.getD (5 * y + (x + 2) % 5) 0) := by
  rw [← xor_mask_eq_sub _ (hs.2 _ (by omega)), chi_getD s hs.1 x y hx hy]

/-- The theorem of C14 at the state with lanes `0, 1, .., 24`, position 4 of row 3. -/
theorem chi_lane_witness :
    IsState (List.range 25) ∧ 4 < 5 ∧ 3 < 5 ∧
    (chi (List.range 25)).getD (5 * 3 + 4) 0
      = (List.range 25).getD (5 * 3 + 4) 0 ^^^
          ((2 ^ 64 - 1 - (List.range 25).getD (5 * 3 + (4 + 1) % 5) 0)
            &&& (List.range 25).getD (5 * 3 + (4 + 2) % 5) 0) :=
  ⟨⟨by decide, by decide⟩, by decide, by decide,
    chi_lane (List.range 25) ⟨by decide, by decide⟩ 4 3 (by decide) (by decide)⟩

/-- C15: `keccakf` with 24 rounds is a permutation of the states, the lists of 25 lanes of
64 bits (the all-zero state is one): it maps states to states, two states with the same
image are equal, and every state is the image of a state. -/
theorem keccakf_is_permutation :
    IsState (List.replicate 25 0) ∧
    (∀ s, IsState s → IsState (keccakf s 24)) ∧
    (∀ s t, IsState s → IsState t → keccakf s 24 = keccakf t 24 → s = t) ∧
    (∀ t, IsState t → ∃ s, IsState s ∧ keccakf s 24 = t) :=
  ⟨⟨by decide, by decide⟩, keccakf_isState 24, keccakf_injective 24, keccakf_surjective 24⟩

/-- C16: every amount passed to `ROTL64`, the constant 1 of Theta and the 24 entries of
`keccakf_rotc` read by Rho Pi, lies strictly between 0 and 64, so that both shifts of
`ROTL64` are by less than 64 bits: Theta and Rho Pi stay the same when the rotation is
replaced by any function that agrees with `ROTL64` on these amounts. For a 64-bit `x` and
such an amount `r`, bit `(i + r) mod 64` of `ROTL64(x, r)` is bit `i` of `x`, for every `i`
below 64, and the result has 64 bits. -/
theorem rotations_are_circular :
    ((0 < 1 ∧ 1 < 64 ∧ 64 - 1 < 64) ∧ keccakf_rotc.length = 24 ∧
      ∀ i, i < 24 → 0 < keccakf_rotc.getD i 0 ∧ keccakf_rotc.getD i 0 < 64 ∧
        64 - keccakf_rotc.getD i 0 < 64) ∧
    (∀ rot : Nat → Nat → Nat, (∀ x r, 0 < r → r < 64 → rot x r = ROTL64 x r) →
      ∀ s, thetaWith rot s = theta s ∧ rhoPiWith rot s = rhoPi s) ∧
    ∀ x r : Nat, x < 2 ^ 64 → 0 < r → r < 64 →
      (∀ i, i < 64 → (ROTL64 x r).testBit ((i + r) % 64) = x.testBit i) ∧
      ROTL64 x r < 2 ^ 64 := by
  refine ⟨⟨by decide, rfl, by decide⟩,
    fun rot h s => ⟨thetaWith_eq rot h s, rhoPiWith_eq rot h s⟩, ?_⟩
  intro x r hx h0 hr
  refine ⟨?_, ROTL64_lt x r hx⟩
  intro i hi
  rw [testBit_ROTL64 x r _ hx h0 hr (Nat.mod_lt _ (by decide))]
  congr 1
  omega

/-- C17: the tables are those of the Keccak specification: `keccakf_rotc[i]` is
`(i + 1)(i + 2) / 2 mod 64` and `keccakf_piln[i]` is `x + 5 y` for the point `(x, y)` that the
walk from `(1, 0)` along `(x, y) ↦ (y, (2 x + 3 y) mod 5)` reaches after `i + 1` steps, for
every `i` below 24; so `keccakf_piln` lists every lane index from 1 to 24 exactly once. -/
theorem tables_are_keccak :
    (keccakf_rotc.length = 24 ∧ keccakf_piln.length = 24) ∧
    (∀ i, i < 24 → keccakf_rotc.getD i 0 = ((i + 1) * (i + 2) / 2) % 64) ∧
    (∀ i, i < 24 → keccakf_piln.getD i 0 = (piWalk (i + 1)).1 + 5 * (piWalk (i + 1)).2) ∧
    keccakf_piln.Nodup ∧
    (∀ j, j < 25 → (j ∈ keccakf_piln ↔ 1 ≤ j)) ∧
    (∀ j, j ∈ keccakf_piln → j < 25) ∧
    (∀ j, j < 25 → 1 ≤ j → keccakf_piln.count j = 1) := by
  refine ⟨⟨rfl, rfl⟩, by decide, by decide, by decide, by decide, ?_, by decide⟩
  intro j hj
  simp only [keccakf_piln, List.mem_cons, List.mem_singleton, List.not_mem_nil, or_false] at hj
  omega

/-- C18: for each supported digest length the rate `rsiz = 200 - 2 mdlen` is 144, 136, 104,
72, a multiple of 8, and `rsizw = rsiz / 8` words are exactly `rsiz` bytes; so the loop over
the `rsizw` words, on the buffer `in` and on `temp` alike, XORs every byte of a block of
`rsiz` bytes into the state: byte `k mod 8` of what lane `k / 8` changes by is byte `k` of
the block, for every `k` below `rsiz`, the last byte `rsiz - 1` among them. -/
theorem rate_covers_block (mdlen : Nat)
    (h : mdlen = 28 ∨ mdlen = 32 ∨ mdlen = 48 ∨ mdlen = 64) :
    (200 - 2 * (28 : Int) = 144 ∧ 200 - 2 * (32 : Int) = 136 ∧ 200 - 2 * (48 : Int) = 104 ∧
      200 - 2 * (64 : Int) = 72) ∧
    (200 - 2 * (mdlen : Int)) % 8 = 0 ∧
    8 * Int.tdiv (200 - 2 * (mdlen : Int)) 8 = 200 - 2 * (mdlen : Int) ∧
    ∀ (B : List Byte) (st : List Nat), B.length = 200 - 2 * mdlen → st.length = 25 →
      ∃ st1, xorLanes (load64 B) (Int.tdiv (200 - 2 * (mdlen : Int)) 8) st = .ok st1 ∧
        xorLanes (loadTemp64 (B.map some ++ List.replicate (144 - (200 - 2 * mdlen)) none))
          (Int.tdiv (200 - 2 * (mdlen : Int)) 8) st = .ok st1 ∧
        ∀ k, k < 200 - 2 * mdlen →
          ((st1.getD (k / 8) 0 ^^^ st.getD (k / 8) 0) >>> (8 * (k % 8))) % 256
            = (B.getD k 0).val := by
  obtain ⟨h1, h2, h4⟩ := supported_rate mdlen h
  obtain ⟨e1, e2, hr8, hr0, hr⟩ := rate_of_mdlen mdlen h1 h2 h4
  refine ⟨by decide, by omega, ?_, ?_⟩
  · rw [e1, e2]; omega
  · intro B st hB hst
    rw [e1, e2]
    refine ⟨xorBlock ((200 - 2 * mdlen) / 8) st B,
      xorLanes_eq _ B st _ (fun i hi => load64_eq _ i (by omega)) (by omega),
      xorLanes_eq _ B st _ (fun i hi => loadTemp64_eq _ _ i (by omega)) (by omega), ?_⟩
    intro k hk
    have hk8 : k / 8 < (200 - 2 * mdlen) / 8 := by omega
    have hlt : k / 8 < st.length := by omega
    have hget : (xorBlock ((200 - 2 * mdlen) / 8) st B).getD (k / 8) 0
        = st.getD (k / 8) 0 ^^^ word B (k / 8) := by
      unfold xorBlock
      simp only [List.getD_eq_getElem?_getD, List.getElem?_mapIdx,
        List.getElem?_eq_getElem hlt, Option.map_some', Option.getD_some, if_pos hk8]
    rw [hget, xor_xor_cancel, word_byte]

/-- The theorem of C18 at digest length 64, where the rate is 72. -/
theorem rate_covers_block_witness :
    ((64 : Nat) = 28 ∨ (64 : Nat) = 32 ∨ (64 : Nat) = 48 ∨ (64 : Nat) = 64) ∧
    (200 - 2 * ((64 : Nat) : Int)) % 8 = 0 ∧
    8 * Int.tdiv (200 - 2 * ((64 : Nat) : Int)) 8 = 200 - 2 * ((64 : Nat) : Int) :=
  have w := rate_covers_block 64 (by decide)
  ⟨by decide, w.2.1, w.2.2.1⟩

/-- C19: for an iteration count `k <= 0` above the least `int`, the iterated `hash` returns
the digest of the single pass, for every buffer, length and digest length: the loop body
never runs, so the result is hashed once and the call returns. -/
theorem hash_iterate_nonpos (inp : List Byte) (inlen mdlen k : Int) (hk : k ≤ 0)
    (hmin : -2 ^ 31 < k) :
    hash_iterate inp inlen mdlen k = hash inp inlen mdlen ∧
    rehash mdlen (2 ^ 31) k = fun md => .ok md := by
  have hw : wrap32 (k - 1) = k - 1 := wrap32_of_range _ (by omega) (by omega)
  have h0 : (wrap32 (k - 1)).toNat = 0 := by rw [hw]; omega
  constructor
  · rw [hash_iterate_eq, h0]
    cases hash inp inlen mdlen <;> rfl
  · funext md
    rw [rehash_eq_rehashTimes mdlen (2 ^ 31) k md (by rw [h0]; decide), h0]
    rfl

/-- The theorem of C19 at the count `-3` on the message `abc` with digest length 32. -/
theorem hash_iterate_nonpos_witness :
    (-3 : Int) ≤ 0 ∧ -2 ^ 31 < (-3 : Int) ∧
    hash_iterate [0x61, 0x62, 0x63] 3 32 (-3) = hash [0x61, 0x62, 0x63] 3 32 ∧
    rehash 32 (2 ^ 31) (-3) = fun md => .ok md :=
  ⟨by decide, by decide, hash_iterate_nonpos [0x61, 0x62, 0x63] 3 32 (-3) (by decide) (by decide)⟩

/-- C20: with the unsupported digest length 30 the rate is 140 and only `140 / 8 = 17` words,
136 bytes, of a block are XORed into the state. Two messages of the same length, at least
140, that agree at every offset outside `136 .. 139` have the same digest (and `hash` does
return one); and in the last block byte 139 carries the bit `0x80`, but what is XORed into
the state is the same whatever byte 139 holds. -/
theorem rate_140_ignores_bytes (M N : List Byte) (hlen : N.length = M.length)
    (hn : 140 ≤ M.length) (hagree : ∀ i, i < 136 ∨ 140 ≤ i → M[i]? = N[i]?) :
    (200 - 2 * (30 : Int) = 140 ∧ Int.tdiv (200 - 2 * (30 : Int)) 8 = 17 ∧
      8 * (17 : Int) = 136) ∧
    (∃ md, hash M M.length 30 = .ok md ∧ hash N N.length 30 = .ok md) ∧
    (∀ (tail : List Byte) (n : Nat) (st : List Nat), n ≤ tail.length → n < 140 →
      st.length = 25 →
      ∃ B : List Byte,
        lastBlock tail n (200 - 2 * (30 : Int)) = .ok (B.map some ++ List.replicate 4 none) ∧
        B.length = 140 ∧ 0x80 ≤ (B.getD 139 0).val ∧
        ∀ b : Byte,
          xorLanes (loadTemp64 ((B.set 139 b).map some ++ List.replicate 4 none))
              (Int.tdiv (200 - 2 * (30 : Int)) 8) st
            = xorLanes (loadTemp64 (B.map some ++ List.replicate 4 none))
              (Int.tdiv (200 - 2 * (30 : Int)) 8) st ∧
          xorLanes (loadTemp64 (B.map some ++ List.replicate 4 none))
              (Int.tdiv (200 - 2 * (30 : Int)) 8) st
            = .ok (xorBlock 17 st (B.take 136))) := by
  have hM := hash_eq_div 30 (by decide) (by decide) M M.length (Nat.le_refl _)
  have hN := hash_eq_div 30 (by decide) (by decide) N N.length (Nat.le_refl _)
  rw [List.take_length] at hM hN
  have htake : M.take 136 = N.take 136 :=
    take_eq_of_getElem? M N 136 (fun i hi => hagree i (Or.inl hi))
  have hdrop : M.drop 140 = N.drop 140 :=
    drop_eq_of_getElem? M N 140 (fun i hi => hagree i (Or.inr hi))
  have hdigest : digest M 30 = digest N 30 := by
    unfold digest finalState
    simp only []
    rw [hlen]
    generalize padding (200 - 2 * 30 - M.length % (200 - 2 * 30)) = pad
    have e140 : 200 - 2 * 30 = 140 := by decide
    rw [e140]
    unfold absorbBlocks
    rw [blocks_cons 140 (M ++ pad) (by decide) (by rw [List.length_append]; omega),
      blocks_cons 140 (N ++ pad) (by decide) (by rw [List.length_append]; omega),
      List.foldl_cons, List.foldl_cons,
      List.take_append_of_le_length (by omega), List.take_append_of_le_length (by omega),
      List.drop_append_of_le_length (by omega), List.drop_append_of_le_length (by omega),
      hdrop, xorBlock_take (140 / 8) 140 _ M (by decide),
      xorBlock_take (140 / 8) 140 _ N (by decide),
      xorBlock_congr_take (140 / 8) 136 _ M N (by decide) htake]
  refine ⟨by decide, ⟨digest M 30, hM, ?_⟩, ?_⟩
  · rw [hdigest]; exact hN
  · intro tail n st hl hn140 hst
    have hT : (tail.take n).length = n := by rw [List.length_take]; omega
    have hlenB : (tail.take n ++ padding (140 - n)).length = 140 := by
      rw [List.length_append, length_padding _ (by omega), hT]; omega
    have e : (200 - 2 * (30 : Int)) = ((140 : Nat) : Int) := by decide
    have e17 : Int.tdiv (200 - 2 * (30 : Int)) 8 = ((17 : Nat) : Int) := by decide
    refine ⟨tail.take n ++ padding (140 - n), ?_, hlenB, ?_, ?_⟩
    · rw [e]
      exact lastBlock_eq tail n 140 hn140 (by decide) hl
    · have h139 : (tail.take n ++ padding (140 - n))[139]? = some 0x80 ∨
          (tail.take n ++ padding (140 - n))[139]? = some 0x86 := by
        rw [List.getElem?_append_right (by omega), hT]
        by_cases hlast : n = 139
        · right
          subst hlast
          rfl
        · left
          have : 139 - n = 140 - n - 1 := by omega
          rw [this]
          exact padding_last _ (by omega)
      rw [List.getD_eq_getElem?_getD]
      rcases h139 with h | h <;> rw [h] <;> decide
    · intro b
      rw [e17]
      have hset : ((tail.take n ++ padding (140 - n)).set 139 b).length = 140 := by
        rw [List.length_set, hlenB]
      have hsame : xorBlock 17 st ((tail.take n ++ padding (140 - n)).set 139 b)
          = xorBlock 17 st (tail.take n ++ padding (140 - n)) := by
        apply xorBlock_congr_take 17 136 _ _ _ (by decide)
        apply take_eq_of_getElem?
        intro i hi
        rw [List.getElem?_set_ne (by omega)]
      rw [xorLanes_eq _ ((tail.take n ++ padding (140 - n)).set 139 b) st 17
          (fun i hi => loadTemp64_eq _ _ i (by omega)) (by omega),
        xorLanes_eq _ (tail.take n ++ padding (140 - n)) st 17
          (fun i hi => loadTemp64_eq _ _ i (by omega)) (by omega), hsame,
        xorBlock_take 17 136 _ _ (by decide)]
      exact ⟨rfl, rfl⟩

/-- The theorem of C20 at two messages of 140 bytes that differ at the offsets 136 to 139. -/
theorem rate_140_ignores_bytes_witness :
    (List.replicate 136 (0 : Byte) ++ [5, 6, 7, 8]).length
      = (List.replicate 136 (0 : Byte) ++ [1, 2, 3, 4]).length ∧
    140 ≤ (List.replicate 136 (0 : Byte) ++ [1, 2, 3, 4]).length ∧
    (∃ md, hash (List.replicate 136 (0 : Byte) ++ [1, 2, 3, 4])
          (List.replicate 136 (0 : Byte) ++ [1, 2, 3, 4]).length 30 = .ok md ∧
        hash (List.replicate 136 (0 : Byte) ++ [5, 6, 7, 8])
          (List.replicate 136 (0 : Byte) ++ [5, 6, 7, 8]).length 30 = .ok md) :=
  have hagree : ∀ i, i < 136 ∨ 140 ≤ i →
      (List.replicate 136 (0 : Byte) ++ [1, 2, 3, 4])[i]?
        = (List.replicate 136 (0 : Byte) ++ [5, 6, 7, 8])[i]? := by
    intro i hi
    rcases hi with hi | hi
    · rw [List.getElem?_append_left (by simp; omega),
        List.getElem?_append_left (by simp; omega)]
    · rw [List.getElem?_eq_none (by simp; omega), List.getElem?_eq_none (by simp; omega)]
  ⟨by simp, by simp,
    (rate_140_ignores_bytes (List.replicate 136 (0 : Byte) ++ [1, 2, 3, 4])
      (List.replicate 136 (0 : Byte) ++ [5, 6, 7, 8]) (by simp) (by simp) hagree).2.1⟩

end vitessa.sha3
